import Mathlib

/-!
# An 8-bit register machine (`rm/main.cpp`)

Shallow embedding of the virtual machine of `main.cpp`: the instruction
record, the register file, the memory, the codec (`encode`, `decodeNext`,
`load`) and the execution engine (`execute`, `step`, the `execute()` loop).

A `Word` (`uint8_t`) is a natural number; every place where the C++ code
converts an `int` result back to `uint8_t` is an explicit `toWord`
(reduction modulo 256).  Exceptions are modelled by an `Outcome` that
carries the machine state at the moment the exception leaves `execute`.
-/

namespace RM

/-! ## Constants -/

/-- Constant `InstructionWordsCount`. -/
abbrev InstructionWordsCount : Nat := 4

/-- Constant `MemoryAmount`, that is `numeric_limits<Word>::max() + 1`. -/
abbrev MemoryAmount : Nat := 255 + 1

/-- Constant `RegCount`. -/
abbrev RegCount : Nat := 8

/-- Conversion of an `int` value to `Word` (`uint8_t`): reduction modulo 256. -/
def toWord (z : Int) : Nat := (z % 256).toNat

/-- Register indices of `namespace R`. -/
abbrev R.IP : Nat := 0
/-- Stack pointer index. -/
abbrev R.SP : Nat := 1
/-- Stack base index. -/
abbrev R.SB : Nat := 2
/-- General register A. -/
abbrev R.A : Nat := 3
/-- General register B. -/
abbrev R.B : Nat := 4
/-- General register C. -/
abbrev R.C : Nat := 5
/-- General register D. -/
abbrev R.D : Nat := 6
/-- Flags register. -/
abbrev R.F : Nat := 7

/-! ## Instruction set -/

/-- The enumeration `Operation`, in declaration order (values 0 .. 29). -/
inductive Operation where
  | OP_MOV_R_I | OP_MOV_R_R | OP_MOV_R_MR
  | OP_MOV_M_I | OP_MOV_M_R | OP_MOV_M_MR
  | OP_MOV_MR_I | OP_MOV_MR_R | OP_MOV_MR_MR
  | OP_ADD_R_I | OP_ADD_R_R
  | OP_SUB_R_I | OP_SUB_R_R
  | OP_MUL_R_I | OP_MUL_R_R
  | OP_DIV_R_I | OP_DIV_R_R
  | OP_PUSH_I | OP_PUSH_R
  | OP_POP_R
  | OP_JMPR_I | OP_JMPR_R
  | OP_JMPA_I | OP_JMPA_R
  | OP_CMP_R_R | OP_CMP_R_I
  | OP_JER_I | OP_JER_R | OP_JEA_I | OP_JEA_R
  deriving DecidableEq, Repr

open Operation

/-- Numeric value of an enumerator (`OP_MOV_R_I = 0`, then consecutive). -/
def Operation.code : Operation → Nat
  | OP_MOV_R_I => 0 | OP_MOV_R_R => 1 | OP_MOV_R_MR => 2
  | OP_MOV_M_I => 3 | OP_MOV_M_R => 4 | OP_MOV_M_MR => 5
  | OP_MOV_MR_I => 6 | OP_MOV_MR_R => 7 | OP_MOV_MR_MR => 8
  | OP_ADD_R_I => 9 | OP_ADD_R_R => 10
  | OP_SUB_R_I => 11 | OP_SUB_R_R => 12
  | OP_MUL_R_I => 13 | OP_MUL_R_R => 14
  | OP_DIV_R_I => 15 | OP_DIV_R_R => 16
  | OP_PUSH_I => 17 | OP_PUSH_R => 18
  | OP_POP_R => 19
  | OP_JMPR_I => 20 | OP_JMPR_R => 21
  | OP_JMPA_I => 22 | OP_JMPA_R => 23
  | OP_CMP_R_R => 24 | OP_CMP_R_I => 25
  | OP_JER_I => 26 | OP_JER_R => 27 | OP_JEA_I => 28 | OP_JEA_R => 29

/-- The case label of `switch (ins.operation)` selected by an operation byte;
`none` when no label matches (the switch has no `default`). -/
def Operation.ofWord (w : Nat) : Option Operation :=
  match w with
  | 0 => some OP_MOV_R_I | 1 => some OP_MOV_R_R | 2 => some OP_MOV_R_MR
  | 3 => some OP_MOV_M_I | 4 => some OP_MOV_M_R | 5 => some OP_MOV_M_MR
  | 6 => some OP_MOV_MR_I | 7 => some OP_MOV_MR_R | 8 => some OP_MOV_MR_MR
  | 9 => some OP_ADD_R_I | 10 => some OP_ADD_R_R
  | 11 => some OP_SUB_R_I | 12 => some OP_SUB_R_R
  | 13 => some OP_MUL_R_I | 14 => some OP_MUL_R_R
  | 15 => some OP_DIV_R_I | 16 => some OP_DIV_R_R
  | 17 => some OP_PUSH_I | 18 => some OP_PUSH_R
  | 19 => some OP_POP_R
  | 20 => some OP_JMPR_I | 21 => some OP_JMPR_R
  | 22 => some OP_JMPA_I | 23 => some OP_JMPA_R
  | 24 => some OP_CMP_R_R | 25 => some OP_CMP_R_I
  | 26 => some OP_JER_I | 27 => some OP_JER_R | 28 => some OP_JEA_I | 29 => some OP_JEA_R
  | _ => none

/-- The union `Instruction`: four words, `words[0]` is the operation byte,
`words[1..3]` the operands. -/
structure Instruction where
  operation : Nat
  operand1 : Nat
  operand2 : Nat
  operand3 : Nat
  deriving DecidableEq, Repr

/-- The array view `instr.words[i]` of the union. -/
def Instruction.words (instr : Instruction) (i : Nat) : Nat :=
  match i with
  | 0 => instr.operation
  | 1 => instr.operand1
  | 2 => instr.operand2
  | _ => instr.operand3

/-! ## Machine state -/

/-- Array cell assignment `f[i] = v`. -/
def update (f : Nat → Nat) (i v : Nat) : Nat → Nat :=
  fun j => if j = i then v else f j

/-- The `Machine`: `memory` (256 words) and `registers` (8 words). -/
structure Machine where
  memory : Nat → Nat
  registers : Nat → Nat

/-- A freshly constructed machine: both arrays zero-initialised. -/
def Machine.fresh : Machine := { memory := fun _ => 0, registers := fun _ => 0 }

/-- The value `*ip`. -/
def Machine.ip (m : Machine) : Nat := m.registers R.IP
/-- The value `*rsp`. -/
def Machine.rsp (m : Machine) : Nat := m.registers R.SP
/-- The value `*rbp`. -/
def Machine.rbp (m : Machine) : Nat := m.registers R.SB

/-- Unchecked register store `registers[i] = v`. -/
def Machine.setReg (m : Machine) (i v : Nat) : Machine :=
  { m with registers := update m.registers i v }

/-- Unchecked memory store `memory[i] = v`. -/
def Machine.setMem (m : Machine) (i v : Nat) : Machine :=
  { m with memory := update m.memory i v }

/-- Every cell of both arrays is an 8-bit value. -/
def Machine.WF (m : Machine) : Prop :=
  (∀ a, m.memory a < 256) ∧ (∀ r, m.registers r < 256)

/-- Every field of the instruction is an 8-bit value. -/
def Instruction.WF (instr : Instruction) : Prop :=
  instr.operation < 256 ∧ instr.operand1 < 256 ∧ instr.operand2 < 256 ∧ instr.operand3 < 256

/-! ## Faults -/

/-- What can leave `step`: the enumerator `ERR_INVALID_IP`, a
`std::out_of_range` (thrown by `registers.at`, `memory_at`, `memory.at`), or
an integer division by zero (undefined in C++; modelled as the arithmetic
trap it raises on the usual targets). -/
inductive Fault where
  | ERR_INVALID_IP
  | out_of_range
  | division_by_zero
  deriving DecidableEq, Repr

/-- Result of running code that may throw: the machine as it is when control
returns normally (`done`) or when the exception propagates (`fault`). -/
inductive Outcome where
  | done (m : Machine)
  | fault (e : Fault) (m : Machine)

/-- The machine state carried by an outcome. -/
def Outcome.machine : Outcome → Machine
  | .done m => m
  | .fault _ m => m

/-- The exception carried by an outcome, if any. -/
def Outcome.error : Outcome → Option Fault
  | .done _ => none
  | .fault e _ => some e

/-- Sequencing of two statements: the second runs only if the first did not
throw. -/
def Outcome.andThen (o : Outcome) (k : Machine → Outcome) : Outcome :=
  match o with
  | .done m => k m
  | .fault e m => .fault e m

/-! ## Checked accessors -/

/-- Read through `registers.at(i)`. -/
def registers_at (m : Machine) (i : Nat) : Except Fault Nat :=
  if i < RegCount then .ok (m.registers i) else .error .out_of_range

/-- Store through `registers.at(i) = v`. -/
def registers_at_put (m : Machine) (i v : Nat) : Except Fault Machine :=
  if i < RegCount then .ok (m.setReg i v) else .error .out_of_range

/-- Read through `memory_at(index)`: throws when `index < *rbp`, otherwise
goes through `memory.at(index)`. -/
def memory_at (m : Machine) (index : Nat) : Except Fault Nat :=
  if index < m.rbp then .error .out_of_range
  else if index < MemoryAmount then .ok (m.memory index)
  else .error .out_of_range

/-- Store through `memory_at(index) = v`. -/
def memory_at_put (m : Machine) (index v : Nat) : Except Fault Machine :=
  if index < m.rbp then .error .out_of_range
  else if index < MemoryAmount then .ok (m.setMem index v)
  else .error .out_of_range

/-- Integer division `a / b` of two words, trapping on a zero divisor. -/
def divide (a b : Nat) : Except Fault Nat :=
  if b = 0 then .error .division_by_zero else .ok (toWord ((a : Int) / (b : Int)))

/-! ## Flags register view -/

/-- Bit-field read `flags->eq` (bit 0 of register F). -/
def flags_eq (f : Nat) : Nat := f % 2

/-- Bit-field read `flags->lt` (bit 1 of register F). -/
def flags_lt (f : Nat) : Nat := f / 2 % 2

/-- Bit-field store `flags->eq = b`: bit 0 replaced, other bits kept. -/
def flags_set_eq (f b : Nat) : Nat := f - f % 2 + b % 2

/-- Bit-field store `flags->lt = b`: bit 1 replaced, other bits kept. -/
def flags_set_lt (f b : Nat) : Nat := f - (f / 2 % 2) * 2 + (b % 2) * 2

/-! ## Codec -/

/-- One iteration of the loop of `encode`:
`memory[*ip] = w; (*ip) += 1;`. -/
def encodeWord (m : Machine) (w : Nat) : Machine :=
  (m.setMem m.ip w).setReg R.IP (toWord ((m.ip : Int) + 1))

/-- Method `encode`: `for (i = 0; i < InstructionWordsCount; i++)` store
`instr.words[i]` at `*ip` and advance `*ip`. -/
def encode (m : Machine) (instr : Instruction) : Machine :=
  [0, 1, 2, 3].foldl (fun acc i => encodeWord acc (instr.words i)) m

/-- Array store `instr.words[i] = v` of the union. -/
def Instruction.setWord (instr : Instruction) (i v : Nat) : Instruction :=
  match i with
  | 0 => { instr with operation := v }
  | 1 => { instr with operand1 := v }
  | 2 => { instr with operand2 := v }
  | _ => { instr with operand3 := v }

/-- One iteration of the loop of `decodeNext`:
`instr.words[i] = memory[*ip]; (*ip) -= 1;`. -/
def decodeWord (acc : Instruction × Machine) (i : Nat) : Instruction × Machine :=
  (acc.1.setWord i (acc.2.memory acc.2.ip), acc.2.setReg R.IP (toWord ((acc.2.ip : Int) - 1)))

/-- Method `decodeNext`: `for (i = InstructionWordsCount - 1; i >= 0; i--)`
read `memory[*ip]` into `instr.words[i]` and step `*ip` back.  Returns the
instruction and the machine with the moved `*ip`. -/
def decodeNext (m : Machine) : Instruction × Machine :=
  [3, 2, 1, 0].foldl decodeWord (⟨0, 0, 0, 0⟩, m)

/-- Method `load`. -/
def load (m : Machine) (instructions : List Instruction) : Machine :=
  let m0 := m.setReg R.IP 0
  if instructions.isEmpty then m0
  else
    let m1 := instructions.reverse.foldl encode m0
    let m2 := m1.setReg R.SB m1.ip
    let m3 := m2.setReg R.SP m2.rbp
    m3.setReg R.IP (toWord ((m3.ip : Int) - 1))

/-! ## Execution engine -/

/-- Outcome of one primitive `case` body run on `m`: every sub-expression
that can throw is evaluated before the first store, so an exception leaves
the machine as it was. -/
def attempt (m : Machine) (r : Except Fault Machine) : Outcome :=
  match r with
  | .ok m1 => .done m1
  | .error e => .fault e m

/-- Body of `case OP_MOV_R_MR`: `registers.at(a) = memory_at(registers.at(b))`. -/
def mov_r_mr (m : Machine) (a b : Nat) : Except Fault Machine := do
  let addr ← registers_at m b
  let v ← memory_at m addr
  registers_at_put m a v

/-- Body of `case OP_MOV_MR_I`: `memory_at(registers.at(a)) = b`. -/
def mov_mr_i (m : Machine) (a b : Nat) : Except Fault Machine := do
  let addr ← registers_at m a
  memory_at_put m addr b

/-- Body of `case OP_MOV_MR_R`: `memory_at(registers.at(a)) = registers.at(b)`. -/
def mov_mr_r (m : Machine) (a b : Nat) : Except Fault Machine := do
  let v ← registers_at m b
  let addr ← registers_at m a
  memory_at_put m addr v

/-- Body of `case OP_ADD_R_I`: `registers.at(a) += b`. -/
def add_r_i (m : Machine) (a b : Nat) : Except Fault Machine := do
  let x ← registers_at m a
  registers_at_put m a (toWord ((x : Int) + b))

/-- Body of `case OP_SUB_R_I`: `registers.at(a) -= b`. -/
def sub_r_i (m : Machine) (a b : Nat) : Except Fault Machine := do
  let x ← registers_at m a
  registers_at_put m a (toWord ((x : Int) - b))

/-- Body of the two `cmp` cases once both operands are read:
`flags->eq = op1 == op2 ? 1 : 0; flags->lt = op1 < op2 ? 1 : 0;`. -/
def compare (m : Machine) (op1 op2 : Nat) : Machine :=
  let m1 := m.setReg R.F (flags_set_eq (m.registers R.F) (if op1 = op2 then 1 else 0))
  m1.setReg R.F (flags_set_lt (m1.registers R.F) (if op1 < op2 then 1 else 0))

/-- Method `execute(Instruction)`: the `switch` over `ins.operation`.  The
nested calls of the push and pop cases carry the constant opcodes
`OP_MOV_MR_I`, `OP_MOV_MR_R`, `OP_ADD_R_I`, `OP_SUB_R_I`, `OP_MOV_R_MR`, so
they run the bodies of exactly those cases. -/
def execute (m : Machine) (ins : Instruction) : Outcome :=
  match Operation.ofWord ins.operation with
  | some OP_MOV_R_I => attempt m (registers_at_put m ins.operand1 ins.operand2)
  | some OP_MOV_R_R => attempt m (do
      let v ← registers_at m ins.operand2
      registers_at_put m ins.operand1 v)
  | some OP_MOV_R_MR => attempt m (mov_r_mr m ins.operand1 ins.operand2)
  | some OP_MOV_M_I => attempt m (memory_at_put m ins.operand1 ins.operand2)
  | some OP_MOV_M_R => attempt m (do
      let v ← registers_at m ins.operand2
      memory_at_put m ins.operand1 v)
  | some OP_MOV_M_MR => attempt m (do
      let addr ← registers_at m ins.operand2
      let v ← memory_at m addr
      memory_at_put m ins.operand1 v)
  | some OP_MOV_MR_I => attempt m (mov_mr_i m ins.operand1 ins.operand2)
  | some OP_MOV_MR_R => attempt m (mov_mr_r m ins.operand1 ins.operand2)
  | some OP_MOV_MR_MR => attempt m (do
      let src ← registers_at m ins.operand2
      let v ← memory_at m src
      let dst ← registers_at m ins.operand1
      memory_at_put m dst v)
  | some OP_ADD_R_I => attempt m (add_r_i m ins.operand1 ins.operand2)
  | some OP_ADD_R_R => attempt m (do
      let y ← registers_at m ins.operand2
      let x ← registers_at m ins.operand1
      registers_at_put m ins.operand1 (toWord ((x : Int) + y)))
  | some OP_SUB_R_I => attempt m (sub_r_i m ins.operand1 ins.operand2)
  | some OP_SUB_R_R => attempt m (do
      let y ← registers_at m ins.operand2
      let x ← registers_at m ins.operand1
      registers_at_put m ins.operand1 (toWord ((x : Int) - y)))
  | some OP_MUL_R_I => attempt m (do
      let x ← registers_at m ins.operand1
      registers_at_put m ins.operand1 (toWord ((x : Int) * ins.operand2)))
  | some OP_MUL_R_R => attempt m (do
      let y ← registers_at m ins.operand2
      let x ← registers_at m ins.operand1
      registers_at_put m ins.operand1 (toWord ((x : Int) * y)))
  | some OP_DIV_R_I => attempt m (do
      let x ← registers_at m ins.operand1
      let q ← divide x ins.operand2
      registers_at_put m ins.operand1 q)
  | some OP_DIV_R_R => attempt m (do
      let y ← registers_at m ins.operand2
      let x ← registers_at m ins.operand1
      let q ← divide x y
      registers_at_put m ins.operand1 q)
  | some OP_PUSH_I =>
      (attempt m (mov_mr_i m R.SP ins.operand1)).andThen fun m1 =>
        attempt m1 (add_r_i m1 R.SP 1)
  | some OP_PUSH_R =>
      (attempt m (mov_mr_r m R.SP ins.operand1)).andThen fun m1 =>
        attempt m1 (add_r_i m1 R.SP 1)
  | some OP_POP_R =>
      (attempt m (sub_r_i m R.SP 1)).andThen fun m1 =>
        attempt m1 (mov_r_mr m1 ins.operand1 R.SP)
  | some OP_JMPR_I => .done (m.setReg R.IP (toWord ((m.ip : Int) - ins.operand1)))
  | some OP_JMPR_R => attempt m (do
      let off ← registers_at m ins.operand1
      pure (m.setReg R.IP (toWord ((m.ip : Int) - off))))
  | some OP_JMPA_I => .done (m.setReg R.IP ins.operand1)
  | some OP_JMPA_R => attempt m (do
      let target ← registers_at m ins.operand1
      pure (m.setReg R.IP target))
  | some OP_CMP_R_R => attempt m (do
      let op1 ← registers_at m ins.operand1
      let op2 ← registers_at m ins.operand2
      pure (compare m op1 op2))
  | some OP_CMP_R_I => attempt m (do
      let op1 ← registers_at m ins.operand1
      pure (compare m op1 ins.operand2))
  | some OP_JER_I =>
      if flags_eq (m.registers R.F) ≠ 0 then
        .done (m.setReg R.IP (toWord ((m.ip : Int) - ins.operand1)))
      else .done m
  | some OP_JER_R =>
      if flags_eq (m.registers R.F) ≠ 0 then attempt m (do
        let off ← registers_at m ins.operand1
        pure (m.setReg R.IP (toWord ((m.ip : Int) - off))))
      else .done m
  | some OP_JEA_I =>
      if flags_eq (m.registers R.F) ≠ 0 then .done (m.setReg R.IP ins.operand1)
      else .done m
  | some OP_JEA_R =>
      if flags_eq (m.registers R.F) ≠ 0 then attempt m (do
        let target ← registers_at m ins.operand1
        pure (m.setReg R.IP target))
      else .done m
  | none => .done m

/-- Method `step`. -/
def step (m : Machine) : Outcome :=
  if (m.ip : Int) < 0 then .fault .ERR_INVALID_IP m
  else
    let d := decodeNext m
    execute d.2 d.1

/-- Method `execute()`: `while (*ip != 0) step();` with a bound on the number
of iterations (`dumpState` only prints).  Returns the number of steps taken
and the outcome, or `none` when the bound is reached with `*ip != 0`. -/
def executeLoop : Nat → Machine → Option (Nat × Outcome)
  | fuel, m =>
    if m.ip = 0 then some (0, .done m)
    else
      match fuel with
      | 0 => none
      | fuel + 1 =>
        match step m with
        | .done m1 => (executeLoop fuel m1).map fun r => (r.1 + 1, r.2)
        | .fault e m1 => some (1, .fault e m1)

/-- Dispatch of a list of instructions in order through `execute`, stopping
at the first one that throws. -/
def executeSeq (m : Machine) : List Instruction → Outcome
  | [] => .done m
  | ins :: rest => (execute m ins).andThen fun m1 => executeSeq m1 rest

/-- Calls `decodeNext` the given number of times, collecting the returned
instructions in call order. -/
def decodeTimes : Nat → Machine → List Instruction × Machine
  | 0, m => ([], m)
  | n + 1, m =>
    let d := decodeNext m
    let r := decodeTimes n d.2
    (d.1 :: r.1, r.2)

/-! ## Operand roles of the opcodes -/

/-- Whether the case body of the opcode passes `ins.operand1` to
`registers.at` (for push and pop: through the nested call). -/
def Operation.operand1IsRegister : Operation → Bool
  | OP_MOV_R_I | OP_MOV_R_R | OP_MOV_R_MR => true
  | OP_MOV_M_I | OP_MOV_M_R | OP_MOV_M_MR => false
  | OP_MOV_MR_I | OP_MOV_MR_R | OP_MOV_MR_MR => true
  | OP_ADD_R_I | OP_ADD_R_R | OP_SUB_R_I | OP_SUB_R_R => true
  | OP_MUL_R_I | OP_MUL_R_R | OP_DIV_R_I | OP_DIV_R_R => true
  | OP_PUSH_I => false
  | OP_PUSH_R | OP_POP_R => true
  | OP_JMPR_I | OP_JMPA_I => false
  | OP_JMPR_R | OP_JMPA_R => true
  | OP_CMP_R_R | OP_CMP_R_I => true
  | OP_JER_I | OP_JEA_I => false
  | OP_JER_R | OP_JEA_R => true

/-- Whether the case body of the opcode passes `ins.operand2` to
`registers.at`. -/
def Operation.operand2IsRegister : Operation → Bool
  | OP_MOV_R_R | OP_MOV_R_MR | OP_MOV_M_R | OP_MOV_M_MR | OP_MOV_MR_R | OP_MOV_MR_MR => true
  | OP_ADD_R_R | OP_SUB_R_R | OP_MUL_R_R | OP_DIV_R_R | OP_CMP_R_R => true
  | _ => false

/-- The four conditional jumps (`if (flags->eq) ...`). -/
def Operation.isConditionalJump : Operation → Bool
  | OP_JER_I | OP_JER_R | OP_JEA_I | OP_JEA_R => true
  | _ => false

/-- The eight jumps: the case bodies that assign `*ip`. -/
def Operation.isJump : Operation → Bool
  | OP_JMPR_I | OP_JMPR_R | OP_JMPA_I | OP_JMPA_R => true
  | OP_JER_I | OP_JER_R | OP_JEA_I | OP_JEA_R => true
  | _ => false

/-- Opcodes whose `ins.operand1` names the register the case body stores to:
the moves to a register, the arithmetic opcodes and pop. -/
def Operation.writesOperand1 : Operation → Bool
  | OP_MOV_R_I | OP_MOV_R_R | OP_MOV_R_MR => true
  | OP_ADD_R_I | OP_ADD_R_R | OP_SUB_R_I | OP_SUB_R_R => true
  | OP_MUL_R_I | OP_MUL_R_R | OP_DIV_R_I | OP_DIV_R_R => true
  | OP_POP_R => true
  | _ => false

/-- The addresses the case body of the instruction passes to `memory_at` on
machine `m`, in evaluation order (for push and pop through the nested call;
pop first decrements SP). -/
def guardedAddresses (m : Machine) (ins : Instruction) : List Nat :=
  match Operation.ofWord ins.operation with
  | some OP_MOV_R_MR => [m.registers ins.operand2]
  | some OP_MOV_M_I => [ins.operand1]
  | some OP_MOV_M_R => [ins.operand1]
  | some OP_MOV_M_MR => [m.registers ins.operand2, ins.operand1]
  | some OP_MOV_MR_I => [m.registers ins.operand1]
  | some OP_MOV_MR_R => [m.registers ins.operand1]
  | some OP_MOV_MR_MR => [m.registers ins.operand2, m.registers ins.operand1]
  | some OP_PUSH_I => [m.registers R.SP]
  | some OP_PUSH_R => [m.registers R.SP]
  | some OP_POP_R => [toWord ((m.registers R.SP : Int) - 1)]
  | _ => []

/-- An instruction that is neither a jump nor has IP as its destination
register (an operation byte that matches no opcode counts as such). -/
def straightLine (ins : Instruction) : Bool :=
  match Operation.ofWord ins.operation with
  | none => true
  | some op => !op.isJump && !(op.writesOperand1 && ins.operand1 == R.IP)

/-- Runs `step` the given number of times, as long as each step dispatches a
`straightLine` instruction and completes; `none` as soon as one does not. -/
def straightSteps : Nat → Machine → Option Machine
  | 0, m => some m
  | k + 1, m =>
    if straightLine (decodeNext m).1 then
      match step m with
      | .done m1 => straightSteps k m1
      | .fault _ _ => none
    else none

/-- Value a register `r` holding `init` ends with when the instructions of
the sequence, read as `mov operand1, operand2`, are applied in order: the
immediate of the last one whose `operand1` is `r`. -/
def lastMove (r init : Nat) : List Instruction → Nat
  | [] => init
  | x :: t => lastMove r (if x.operand1 = r then x.operand2 else init) t

/-! ## Auxiliary predicates and sample machines -/

/-- Memory holds the encoded blocks of the sequence, the block of the last
instruction at addresses 0 .. 3 and each earlier instruction four cells
higher: the head `x` of `x :: t` occupies `4 * t.length .. 4 * t.length + 3`. -/
def Layout (mem : Nat → Nat) : List Instruction → Prop
  | [] => True
  | x :: t => (∀ j, j < 4 → mem (4 * t.length + j) = x.words j) ∧ Layout mem t

/-- Machine positioned to decode the instructions of `s` in order: its memory
has the layout of `s` and `*ip` is the last address of the block of the head
of `s` (255 when `s` is empty). -/
def Loaded (mach : Machine) (s : List Instruction) : Prop :=
  mach.registers R.IP = toWord (((4 * s.length : Nat) : Int) - 1) ∧ Layout mach.memory s

/-- A machine about to run the rest `t` of a loaded program, with the four
top cells of memory (252 .. 255) still zero. -/
def Ready (mach : Machine) (t : List Instruction) : Prop :=
  Loaded mach t ∧ ∀ a, 252 ≤ a → a < 256 → mach.memory a = 0

/-- The program `mov rax, 1; mov rbx, 2; mov rax, 3`. -/
def movProgram : List Instruction :=
  [⟨OP_MOV_R_I.code, R.A, 1, 0⟩, ⟨OP_MOV_R_I.code, R.B, 2, 0⟩, ⟨OP_MOV_R_I.code, R.A, 3, 0⟩]

/-- The program `mov rax, 250; add rax, 10`. -/
def sampleProgram : List Instruction :=
  [⟨OP_MOV_R_I.code, R.A, 250, 0⟩, ⟨OP_ADD_R_I.code, R.A, 10, 0⟩]

/-- A fresh machine after `load` of the two-instruction `sampleProgram`
(so `*rbp = *rsp = 8`). -/
def sampleMachine : Machine := load Machine.fresh sampleProgram

/-- The division scenario `A = 5; B = 0; div A, B`: the one-instruction
program `div rax, rbx` loaded into a fresh machine, register A then set to 5. -/
def divFaultMachine : Machine :=
  (load Machine.fresh [⟨OP_DIV_R_R.code, R.A, R.B, 0⟩]).setReg R.A 5

/-- The program `jmpr 3; mov rax, 1` loaded into a fresh machine: the next
instruction is the relative jump, at `IP = 7`. -/
def jumpMachine : Machine :=
  load Machine.fresh [⟨OP_JMPR_I.code, 3, 0, 0⟩, ⟨OP_MOV_R_I.code, R.A, 1, 0⟩]

/-- A machine whose stack is full up to the last cell: `SB = 8`, `SP = 255`. -/
def fullStackMachine : Machine := (Machine.fresh.setReg R.SB 8).setReg R.SP 255

/-! ## Basic facts about words, arrays and the checked accessors -/

@[simp] theorem update_same (f : Nat → Nat) (i v : Nat) : update f i v i = v := by
  simp [update]

theorem update_other (f : Nat → Nat) (i v j : Nat) (h : j ≠ i) : update f i v j = f j := by
  simp [update, h]

theorem update_update (f : Nat → Nat) (i v w : Nat) :
    update (update f i v) i w = update f i w := by
  funext j
  simp only [update]
  split <;> rfl

theorem toWord_lt (z : Int) : toWord z < 256 := by
  unfold toWord; omega

theorem toWord_add (a b : Nat) : toWord ((a : Int) + b) = (a + b) % 256 := by
  unfold toWord; omega

theorem toWord_mul (a b : Nat) : toWord ((a : Int) * b) = (a * b) % 256 := by
  unfold toWord
  have h : ((a : Int) * b) = ((a * b : Nat) : Int) := by push_cast; rfl
  rw [h]; omega

theorem toWord_div (a b : Nat) (h : a < 256) : toWord ((a : Int) / b) = a / b := by
  unfold toWord
  have h1 : a / b ≤ a := Nat.div_le_self a b
  have h2 : ((a : Int) / b) = ((a / b : Nat) : Int) := by push_cast; rfl
  rw [h2]
  generalize a / b = q at h1
  omega

theorem toWord_toWord_sub (z k : Int) : toWord ((toWord z : Int) - k) = toWord (z - k) := by
  unfold toWord; omega

theorem bind_eq_ok {α β : Type} (x : Except Fault α) (f : α → Except Fault β) (b : β) :
    (x >>= f) = .ok b ↔ ∃ a, x = .ok a ∧ f a = .ok b := by
  cases x <;> simp [bind, Except.bind]

theorem map_eq_ok {α β : Type} (x : Except Fault α) (f : α → β) (b : β) :
    (f <$> x) = .ok b ↔ ∃ a, x = .ok a ∧ b = f a := by
  cases x <;> simp [Functor.map, Except.map, eq_comm]

theorem pure_eq_ok {α : Type} (a b : α) : (pure a : Except Fault α) = .ok b ↔ b = a := by
  simp [pure, Except.pure, eq_comm]

theorem registers_at_eq_ok (m : Machine) (i v : Nat) :
    registers_at m i = .ok v ↔ i < 8 ∧ v = m.registers i := by
  unfold registers_at RegCount; split <;> simp_all [eq_comm]

theorem registers_at_put_eq_ok (m m1 : Machine) (i v : Nat) :
    registers_at_put m i v = .ok m1 ↔ i < 8 ∧ m1 = m.setReg i v := by
  unfold registers_at_put RegCount; split <;> simp_all [eq_comm]

theorem memory_at_eq_ok (m : Machine) (i v : Nat) :
    memory_at m i = .ok v ↔ m.registers R.SB ≤ i ∧ i < 256 ∧ v = m.memory i := by
  unfold memory_at Machine.rbp MemoryAmount
  by_cases h1 : i < m.registers R.SB
  · simp [h1]
  · by_cases h2 : i < 256
    · simp [h1, h2, eq_comm]; omega
    · simp [h1, h2]

theorem memory_at_put_eq_ok (m m1 : Machine) (i v : Nat) :
    memory_at_put m i v = .ok m1 ↔ m.registers R.SB ≤ i ∧ i < 256 ∧ m1 = m.setMem i v := by
  unfold memory_at_put Machine.rbp MemoryAmount
  by_cases h1 : i < m.registers R.SB
  · simp [h1]
  · by_cases h2 : i < 256
    · simp [h1, h2, eq_comm]; omega
    · simp [h1, h2]

theorem divide_eq_ok (a b q : Nat) :
    divide a b = .ok q ↔ b ≠ 0 ∧ q = toWord ((a : Int) / b) := by
  unfold divide; split <;> simp_all [eq_comm]

theorem attempt_machine (P : Machine → Prop) (m : Machine) (r : Except Fault Machine)
    (h0 : P m) (h1 : ∀ m1, r = .ok m1 → P m1) : P (attempt m r).machine := by
  cases r with
  | error e => exact h0
  | ok m1 => exact h1 m1 rfl

theorem andThen_machine (P : Machine → Prop) (o : Outcome) (k : Machine → Outcome)
    (h0 : ∀ e m1, o = .fault e m1 → P m1) (h1 : ∀ m1, o = .done m1 → P (k m1).machine) :
    P (o.andThen k).machine := by
  cases o with
  | done m1 => exact h1 m1 rfl
  | fault e m1 => exact h0 e m1 rfl

theorem attempt_eq_done (m m1 : Machine) (r : Except Fault Machine) :
    attempt m r = .done m1 ↔ r = .ok m1 := by
  cases r <;> simp [attempt]

theorem attempt_eq_fault (m m1 : Machine) (r : Except Fault Machine) (e : Fault) :
    attempt m r = .fault e m1 ↔ r = .error e ∧ m1 = m := by
  cases r <;> simp [attempt, eq_comm]

theorem memory_setMem_below (m : Machine) (i v a : Nat) (h : a < i) :
    (m.setMem i v).memory a = m.memory a := by
  have : a ≠ i := by omega
  simp [Machine.setMem, update_other _ _ _ _ this]

/-! ## The codec -/

theorem encode_registers (m : Machine) (x : Instruction) (q : Nat) (hq : q ≠ R.IP) :
    (encode m x).registers q = m.registers q := by
  simp [encode, encodeWord, Machine.setReg, Machine.setMem, update_other _ _ _ _ hq]

theorem encode_ip (m : Machine) (x : Instruction) (p : Nat) (hp : m.registers R.IP = p)
    (hlt : p + 4 < 256) : (encode m x).registers R.IP = p + 4 := by
  simp only [encode, List.foldl, encodeWord, Machine.setReg, Machine.setMem, Machine.ip,
    update_same, hp]
  unfold toWord; omega

theorem encode_memory (m : Machine) (x : Instruction) (p : Nat) (hp : m.registers R.IP = p)
    (hlt : p + 4 < 256) (a : Nat) :
    (encode m x).memory a =
      if a = p then x.words 0 else if a = p + 1 then x.words 1
      else if a = p + 2 then x.words 2 else if a = p + 3 then x.words 3 else m.memory a := by
  have t1 : toWord ((p : Int) + 1) = p + 1 := by unfold toWord; omega
  have t2 : toWord (((p + 1 : Nat) : Int) + 1) = p + 2 := by unfold toWord; omega
  have t3 : toWord (((p + 2 : Nat) : Int) + 1) = p + 3 := by unfold toWord; omega
  simp only [encode, List.foldl, encodeWord, Machine.setReg, Machine.setMem, Machine.ip,
    update_same, hp, t1, t2, t3]
  simp only [update]
  by_cases h0 : a = p
  · subst h0; simp
  · by_cases h1 : a = p + 1
    · subst h1; simp
    · by_cases h2 : a = p + 2
      · subst h2; simp
      · simp [h0, h1, h2]

theorem Layout_congr (mem mem1 : Nat → Nat) (s : List Instruction)
    (h : ∀ a, a < 4 * s.length → mem1 a = mem a) (hl : Layout mem s) : Layout mem1 s := by
  induction s with
  | nil => trivial
  | cons x t ih =>
    obtain ⟨hx, ht⟩ := hl
    refine ⟨fun j hj => ?_, ih (fun a ha => h a (by simp; omega)) ht⟩
    rw [h _ (by simp; omega)]
    exact hx j hj

theorem Layout_get (mem : Nat → Nat) (s : List Instruction) (hl : Layout mem s)
    (k : Nat) (hk : k < s.length) (j : Nat) (hj : j < 4) :
    mem (4 * (s.length - 1 - k) + j) = s[k].words j := by
  induction s generalizing k with
  | nil => simp at hk
  | cons x t ih =>
    obtain ⟨hx, ht⟩ := hl
    cases k with
    | zero => simpa using hx j hj
    | succ k =>
      have hk1 : k < t.length := by simpa using hk
      have := ih ht k hk1
      simp only [List.length_cons, List.getElem_cons_succ]
      have e : t.length + 1 - 1 - (k + 1) = t.length - 1 - k := by omega
      rw [e]; exact this

/-- The encode loop of `load`, started at `*ip = 0` on at most 63
instructions: where it leaves `*ip`, what it leaves alone, and the layout
it writes. -/
theorem encodeAll_spec (m : Machine) (hip : m.registers R.IP = 0) (s : List Instruction)
    (hlen : s.length ≤ 63) :
    (s.reverse.foldl encode m).registers R.IP = 4 * s.length ∧
    (∀ q, q ≠ R.IP → (s.reverse.foldl encode m).registers q = m.registers q) ∧
    (∀ a, 4 * s.length ≤ a → (s.reverse.foldl encode m).memory a = m.memory a) ∧
    Layout (s.reverse.foldl encode m).memory s := by
  induction s with
  | nil => simp [hip, Layout]
  | cons x t ih =>
    have hlen1 : t.length ≤ 62 := by simp at hlen; omega
    obtain ⟨h1, h2, h3, h4⟩ := ih (by omega)
    simp only [List.reverse_cons, List.foldl_append, List.foldl_cons, List.foldl_nil,
      List.length_cons]
    generalize t.reverse.foldl encode m = mt at h1 h2 h3 h4
    have hlt : 4 * t.length + 4 < 256 := by omega
    refine ⟨?_, ?_, ?_, ?_, ?_⟩
    · rw [encode_ip mt x _ h1 hlt]; omega
    · intro q hq
      rw [encode_registers mt x q hq, h2 q hq]
    · intro a ha
      rw [encode_memory mt x _ h1 hlt a, ← h3 a (by omega), if_neg (by omega),
        if_neg (by omega), if_neg (by omega), if_neg (by omega)]
    · intro j hj
      rw [encode_memory mt x _ h1 hlt]
      interval_cases j <;> simp
    · apply Layout_congr mt.memory _ t _ h4
      intro a ha
      rw [encode_memory mt x _ h1 hlt a, if_neg (by omega), if_neg (by omega),
        if_neg (by omega), if_neg (by omega)]

theorem load_eq (m : Machine) (s : List Instruction) (h1 : 1 ≤ s.length) :
    load m s =
      (((s.reverse.foldl encode (m.setReg R.IP 0)).setReg R.SB
          (s.reverse.foldl encode (m.setReg R.IP 0)).ip).setReg R.SP
          (s.reverse.foldl encode (m.setReg R.IP 0)).ip).setReg R.IP
        (toWord (((s.reverse.foldl encode (m.setReg R.IP 0)).ip : Int) - 1)) := by
  have hne : s.isEmpty = false := by
    cases s with
    | nil => simp at h1
    | cons x t => rfl
  simp [load, hne, Machine.rbp, Machine.ip, Machine.setReg, update]

/-- Closed form of `decodeNext`: the four cells read and the final `*ip`. -/
theorem decodeNext_eq (m : Machine) :
    decodeNext m =
      (⟨m.memory (toWord ((m.ip : Int) - 3)), m.memory (toWord ((m.ip : Int) - 2)),
        m.memory (toWord ((m.ip : Int) - 1)), m.memory m.ip⟩,
       m.setReg R.IP (toWord ((m.ip : Int) - 4))) := by
  simp only [decodeNext, List.foldl, decodeWord, Instruction.setWord, Machine.ip, Machine.setReg,
    update_same, update_update, toWord_toWord_sub, sub_sub]
  norm_num

theorem decodeNext_loaded (mach : Machine) (x : Instruction) (t : List Instruction)
    (hlen : t.length + 1 ≤ 63) (h : Loaded mach (x :: t)) :
    (decodeNext mach).1 = x ∧ Loaded (decodeNext mach).2 t := by
  obtain ⟨hip, hx, ht⟩ := h
  simp only [List.length_cons] at hip
  have hip1 : mach.registers R.IP = 4 * t.length + 3 := by
    rw [hip]; unfold toWord; omega
  have w3 : toWord (((4 * t.length + 3 : Nat) : Int) - 3) = 4 * t.length + 0 := by
    unfold toWord; omega
  have w2 : toWord (((4 * t.length + 3 : Nat) : Int) - 2) = 4 * t.length + 1 := by
    unfold toWord; omega
  have w1 : toWord (((4 * t.length + 3 : Nat) : Int) - 1) = 4 * t.length + 2 := by
    unfold toWord; omega
  have w4 : toWord (((4 * t.length + 3 : Nat) : Int) - 4)
      = toWord (((4 * t.length : Nat) : Int) - 1) := by
    unfold toWord; omega
  rw [decodeNext_eq]
  simp only [Machine.ip, hip1, w3, w2, w1, w4]
  refine ⟨?_, ?_, ?_⟩
  · rw [hx 0 (by omega), hx 1 (by omega), hx 2 (by omega), hx 3 (by omega)]
    rfl
  · simp [Machine.setReg]
  · exact ht

theorem decodeTimes_loaded (s : List Instruction) (hlen : s.length ≤ 63) :
    ∀ (k : Nat) (mach : Machine), k ≤ s.length → Loaded mach s →
      (decodeTimes k mach).1 = s.take k ∧ Loaded (decodeTimes k mach).2 (s.drop k) := by
  induction s with
  | nil =>
    intro k mach hk h
    have : k = 0 := by simpa using hk
    subst this
    exact ⟨rfl, h⟩
  | cons x t ih =>
    intro k mach hk h
    cases k with
    | zero => exact ⟨rfl, h⟩
    | succ k =>
      have hlen1 : t.length + 1 ≤ 63 := by simpa using hlen
      obtain ⟨hd, hl⟩ := decodeNext_loaded mach x t hlen1 h
      obtain ⟨r1, r2⟩ := ih (by omega) k (decodeNext mach).2 (by simpa using hk) hl
      simp only [decodeTimes, List.take_succ_cons, List.drop_succ_cons]
      exact ⟨by rw [hd, r1], r2⟩

theorem load_loaded (m : Machine) (s : List Instruction) (h1 : 1 ≤ s.length)
    (h2 : s.length ≤ 63) : Loaded (load m s) s := by
  obtain ⟨e1, -, -, e4⟩ := encodeAll_spec (m.setReg R.IP 0) (by simp [Machine.setReg]) s h2
  rw [load_eq m s h1]
  generalize s.reverse.foldl encode (m.setReg R.IP 0) = M at e1 e4
  refine ⟨?_, ?_⟩
  · simp [Machine.setReg, Machine.ip, e1]
  · exact e4

/-! ## The execution engine -/

theorem executeLoop_halted (fuel : Nat) (m : Machine) (h : m.ip = 0) :
    executeLoop fuel m = some (0, .done m) := by
  unfold executeLoop; simp [h]

/-- Effect of the two bit-field stores of a comparison on register F. -/
theorem compare_spec (m : Machine) (a b : Nat) :
    (compare m a b).registers R.F % 2 = (if a = b then 1 else 0) ∧
    (compare m a b).registers R.F / 2 % 2 = (if a < b then 1 else 0) ∧
    (compare m a b).registers R.F / 4 = m.registers R.F / 4 ∧
    (∀ q, q ≠ R.F → (compare m a b).registers q = m.registers q) ∧
    (compare m a b).memory = m.memory := by
  simp only [compare, Machine.setReg, update_same, flags_set_eq, flags_set_lt]
  refine ⟨?_, ?_, ?_, ?_, trivial⟩
  · split <;> split <;> omega
  · split <;> split <;> omega
  · split <;> split <;> omega
  · intro q hq
    simp [update_other _ _ _ _ hq]

theorem execute_cmp_r_r (m : Machine) (r1 r2 c : Nat) (h1 : r1 < 8) (h2 : r2 < 8) :
    execute m ⟨OP_CMP_R_R.code, r1, r2, c⟩
      = .done (compare m (m.registers r1) (m.registers r2)) := by
  simp [execute, Operation.code, Operation.ofWord, registers_at, attempt, bind, Except.bind,
    pure, Except.pure, h1, h2]

theorem execute_cmp_r_i (m : Machine) (r1 x c : Nat) (h1 : r1 < 8) :
    execute m ⟨OP_CMP_R_I.code, r1, x, c⟩ = .done (compare m (m.registers r1) x) := by
  simp [execute, Operation.code, Operation.ofWord, registers_at, attempt, bind, Except.bind,
    pure, Except.pure, h1]

theorem execute_push_i (m : Machine) (v b c : Nat)
    (h1 : m.registers R.SB ≤ m.registers R.SP) (h2 : m.registers R.SP < 256) :
    execute m ⟨OP_PUSH_I.code, v, b, c⟩
      = .done ((m.setMem (m.registers R.SP) v).setReg R.SP
          (toWord ((m.registers R.SP : Int) + 1))) := by
  have hn : ¬ m.registers R.SP < m.registers R.SB := by omega
  simp [execute, Operation.code, Operation.ofWord, mov_mr_i, add_r_i, registers_at,
    registers_at_put, memory_at_put, Machine.rbp, bind, Except.bind, attempt, Outcome.andThen,
    hn, h2, Machine.setMem]

theorem execute_pop_r (m : Machine) (r b c : Nat) (hr : r < 8)
    (h1 : m.registers R.SB ≤ toWord ((m.registers R.SP : Int) - 1)) :
    execute m ⟨OP_POP_R.code, r, b, c⟩
      = .done ((m.setReg R.SP (toWord ((m.registers R.SP : Int) - 1))).setReg r
          (m.memory (toWord ((m.registers R.SP : Int) - 1)))) := by
  have hn : ¬ toWord ((m.registers R.SP : Int) - 1) < m.registers R.SB := by omega
  have h2 := toWord_lt ((m.registers R.SP : Int) - 1)
  simp [execute, Operation.code, Operation.ofWord, mov_r_mr, sub_r_i, registers_at,
    registers_at_put, memory_at, Machine.rbp, bind, Except.bind, attempt, Outcome.andThen,
    hn, h2, hr, Machine.setReg, update]

theorem ofWord_none (w : Nat) (h : 30 ≤ w) : Operation.ofWord w = none := by
  unfold Operation.ofWord
  split <;> first | rfl | omega

theorem ofWord_code (op : Operation) : Operation.ofWord op.code = some op := by
  cases op <;> rfl

theorem ofWord_eq_some (w : Nat) (op : Operation) (h : Operation.ofWord w = some op) :
    w = op.code := by
  unfold Operation.ofWord at h
  split at h <;> first | (cases h; rfl) | cases h

theorem execute_push_i_fault (m : Machine) (v b c : Nat)
    (h1 : m.registers R.SP < m.registers R.SB) :
    execute m ⟨OP_PUSH_I.code, v, b, c⟩ = .fault .out_of_range m := by
  simp [execute, Operation.code, Operation.ofWord, mov_mr_i, registers_at,
    memory_at_put, Machine.rbp, bind, Except.bind, attempt, Outcome.andThen, h1]

theorem execute_pop_r_fault (m : Machine) (r b c : Nat)
    (h1 : toWord ((m.registers R.SP : Int) - 1) < m.registers R.SB) :
    execute m ⟨OP_POP_R.code, r, b, c⟩
      = .fault .out_of_range (m.setReg R.SP (toWord ((m.registers R.SP : Int) - 1))) := by
  simp [execute, Operation.code, Operation.ofWord, mov_r_mr, sub_r_i, registers_at,
    registers_at_put, memory_at, Machine.rbp, bind, Except.bind, attempt, Outcome.andThen,
    h1, Machine.setReg, update]

/-- Dispatch of a straight-line instruction leaves `*ip` alone, whether it
completes or faults. -/
theorem execute_straightLine_ip (m : Machine) (ins : Instruction)
    (hs : straightLine ins = true) :
    (execute m ins).machine.registers R.IP = m.registers R.IP := by
  have key : ∀ (r : Except Fault Machine),
      (∀ m1, r = .ok m1 → m1.registers R.IP = m.registers R.IP) →
      (attempt m r).machine.registers R.IP = m.registers R.IP :=
    fun r h1 => attempt_machine (fun x => x.registers R.IP = m.registers R.IP) m r rfl h1
  unfold straightLine at hs
  unfold execute
  split
  case h_31 => rfl
  all_goals
    rename_i heq
    rw [heq] at hs
    simp only [Operation.isJump, Operation.writesOperand1, Bool.not_false, Bool.not_true,
      Bool.true_and, Bool.false_and, Bool.and_true, Bool.and_false, Bool.not_eq_true',
      beq_eq_false_iff_ne, ne_eq, Bool.false_eq_true] at hs
  case h_18 | h_19 =>
    apply andThen_machine (fun x => x.registers R.IP = m.registers R.IP)
    · intro e m1 h
      rw [attempt_eq_fault] at h
      rw [h.2]
    · intro m1 h
      have hm1 : m1.registers = m.registers := by
        revert h
        simp only [attempt_eq_done, mov_mr_i, mov_mr_r, bind_eq_ok, registers_at_eq_ok,
          memory_at_put_eq_ok, and_assoc]
        intro h
        obtain ⟨_, _, _, _, _, _, _, _, _, _, rfl⟩ := h
        rfl
      apply attempt_machine (fun x => x.registers R.IP = m.registers R.IP) m1 _
        (by rw [hm1])
      intro m2 h2
      simp only [add_r_i, bind_eq_ok, registers_at_eq_ok, registers_at_put_eq_ok,
        and_assoc] at h2
      obtain ⟨_, _, _, _, _, _, _, rfl⟩ := h2
      simp [Machine.setReg, update, hm1]
  case h_20 =>
    apply andThen_machine (fun x => x.registers R.IP = m.registers R.IP)
    · intro e m1 h
      rw [attempt_eq_fault] at h
      rw [h.2]
    · intro m1 h
      simp only [attempt_eq_done, sub_r_i, bind_eq_ok, registers_at_eq_ok,
        registers_at_put_eq_ok, and_assoc] at h
      obtain ⟨_, _, _, _, _, _, _, rfl⟩ := h
      apply attempt_machine (fun x => x.registers R.IP = m.registers R.IP) _ _
        (by simp [Machine.setReg, update])
      intro m2 h2
      simp only [mov_r_mr, bind_eq_ok, registers_at_eq_ok, registers_at_put_eq_ok,
        memory_at_eq_ok, and_assoc] at h2
      obtain ⟨_, _, _, _, _, _, _, _, _, _, _, rfl⟩ := h2
      have h0 : ¬ (0 = ins.operand1) := fun h => hs h.symm
      simp [Machine.setReg, update, h0]
  all_goals
    apply key
    intro m1
    simp only [mov_r_mr, mov_mr_i, mov_mr_r, add_r_i, sub_r_i, bind_eq_ok, pure_eq_ok,
      map_eq_ok, registers_at_eq_ok, registers_at_put_eq_ok, memory_at_eq_ok,
      memory_at_put_eq_ok, divide_eq_ok, and_assoc]
    intro h
    obtain ⟨_, _, _, _, _, _, _, _, _, _, _, _, _, _, rfl⟩ := h
    first
      | rfl
      | (have h0 : ¬ (0 = ins.operand1) := fun h => hs h.symm
         simp only [Machine.setReg, update, h0, if_false])

/-! ## The byte range is an invariant of the machine -/

/-- The guard `*ip < 0` of `step` never fires: `step` is `decodeNext`
followed by `execute`. -/
theorem step_eq (m : Machine) : step m = execute (decodeNext m).2 (decodeNext m).1 := by
  unfold step
  have : ¬ ((m.ip : Int) < 0) := by omega
  simp [this]

theorem WF_setReg (m : Machine) (i v : Nat) (hm : m.WF) (hv : v < 256) : (m.setReg i v).WF := by
  refine ⟨hm.1, fun r => ?_⟩
  simp only [Machine.setReg, update]
  split
  · exact hv
  · exact hm.2 r

theorem WF_setMem (m : Machine) (i v : Nat) (hm : m.WF) (hv : v < 256) : (m.setMem i v).WF := by
  refine ⟨fun a => ?_, hm.2⟩
  simp only [Machine.setMem, update]
  split
  · exact hv
  · exact hm.1 a

theorem WF_compare (m : Machine) (a b : Nat) (hm : m.WF) : (compare m a b).WF := by
  have hf := hm.2 R.F
  unfold compare
  apply WF_setReg
  · apply WF_setReg _ _ _ hm
    unfold flags_set_eq; omega
  · simp only [Machine.setReg, update_same]
    unfold flags_set_lt flags_set_eq; omega

/-- The byte range is an invariant of dispatch: a machine whose cells are all
8-bit values still is one after any instruction with 8-bit fields, whether
the instruction completes or faults. -/
theorem execute_preserves_WF (m : Machine) (ins : Instruction) (hm : m.WF) (hi : ins.WF) :
    (execute m ins).machine.WF := by
  obtain ⟨-, hi1, hi2, -⟩ := hi
  have key : ∀ (r : Except Fault Machine),
      (∀ m1, r = .ok m1 → m1.WF) → (attempt m r).machine.WF := fun r h1 =>
    attempt_machine Machine.WF m r hm h1
  have hone : (1 : Nat) < 256 := by decide
  unfold execute
  split
  case h_18 | h_19 =>
    apply andThen_machine Machine.WF
    · intro e m1 h
      rw [attempt_eq_fault] at h
      rw [h.2]; exact hm
    · intro m1 h
      have hm1 : m1.WF := by
        revert h
        simp only [attempt_eq_done, mov_mr_i, mov_mr_r, bind_eq_ok, registers_at_eq_ok,
          memory_at_put_eq_ok, and_assoc]
        intro h
        obtain ⟨_, _, _, _, _, _, _, _, _, _, _, _, _, _, rfl⟩ := h
        subst_vars
        first
          | exact WF_setMem _ _ _ hm hi1
          | exact WF_setMem _ _ _ hm (hm.2 _)
      apply attempt_machine Machine.WF m1 _ hm1
      intro m2 h2
      simp only [add_r_i, bind_eq_ok, registers_at_eq_ok, registers_at_put_eq_ok] at h2
      obtain ⟨_, _, _, rfl⟩ := h2
      exact WF_setReg _ _ _ hm1 (toWord_lt _)
  case h_20 =>
    apply andThen_machine Machine.WF
    · intro e m1 h
      rw [attempt_eq_fault] at h
      rw [h.2]; exact hm
    · intro m1 h
      have hm1 : m1.WF := by
        simp only [attempt_eq_done, sub_r_i, bind_eq_ok, registers_at_eq_ok,
          registers_at_put_eq_ok] at h
        obtain ⟨_, _, _, rfl⟩ := h
        exact WF_setReg _ _ _ hm (toWord_lt _)
      apply attempt_machine Machine.WF m1 _ hm1
      intro m2 h2
      simp only [mov_r_mr, bind_eq_ok, registers_at_eq_ok, registers_at_put_eq_ok,
        memory_at_eq_ok, and_assoc] at h2
      obtain ⟨_, _, _, _, _, _, _, _, _, _, _, _, _, _, rfl⟩ := h2
      subst_vars
      exact WF_setReg _ _ _ hm1 (hm1.1 _)
  all_goals first
    | exact hm
    | exact WF_setReg _ _ _ hm (toWord_lt _)
    | exact WF_setReg _ _ _ hm hi1
    | (split <;> first
        | exact hm
        | exact WF_setReg _ _ _ hm (toWord_lt _)
        | exact WF_setReg _ _ _ hm hi1
        | skip)
    | skip
  all_goals
    apply key
    intro m1
    simp only [mov_r_mr, mov_mr_i, mov_mr_r, add_r_i, sub_r_i, bind_eq_ok, pure_eq_ok,
      map_eq_ok, registers_at_eq_ok, registers_at_put_eq_ok, memory_at_eq_ok,
      memory_at_put_eq_ok, divide_eq_ok, and_assoc]
    intro h
    obtain ⟨_, _, _, _, _, _, _, _, _, _, _, _, _, _, rfl⟩ := h
    subst_vars
    first
      | exact WF_compare _ _ _ hm
      | exact WF_setReg _ _ _ hm (toWord_lt _)
      | exact WF_setReg _ _ _ hm hi1
      | exact WF_setReg _ _ _ hm hi2
      | exact WF_setReg _ _ _ hm (hm.1 _)
      | exact WF_setReg _ _ _ hm (hm.2 _)
      | exact WF_setMem _ _ _ hm hi1
      | exact WF_setMem _ _ _ hm hi2
      | exact WF_setMem _ _ _ hm (hm.1 _)
      | exact WF_setMem _ _ _ hm (hm.2 _)

theorem encode_preserves_WF (m : Machine) (x : Instruction) (hm : m.WF) (hx : x.WF) :
    (encode m x).WF := by
  obtain ⟨h0, h1, h2, h3⟩ := hx
  simp only [encode, List.foldl, encodeWord, Instruction.words]
  exact WF_setReg _ _ _ (WF_setMem _ _ _ (WF_setReg _ _ _ (WF_setMem _ _ _
    (WF_setReg _ _ _ (WF_setMem _ _ _ (WF_setReg _ _ _ (WF_setMem _ _ _ hm h0)
    (toWord_lt _)) h1) (toWord_lt _)) h2) (toWord_lt _)) h3) (toWord_lt _)

theorem foldl_encode_preserves_WF (l : List Instruction) (hl : ∀ x ∈ l, x.WF) :
    ∀ m : Machine, m.WF → (l.foldl encode m).WF := by
  induction l with
  | nil => intro m hm; exact hm
  | cons x t ih =>
    intro m hm
    simp only [List.foldl_cons]
    exact ih (fun y hy => hl y (List.mem_cons_of_mem _ hy)) _
      (encode_preserves_WF m x hm (hl x (List.mem_cons_self _ _)))

/-- The byte range is an invariant of `load`. -/
theorem load_preserves_WF (m : Machine) (s : List Instruction) (hm : m.WF)
    (hs : ∀ x ∈ s, x.WF) : (load m s).WF := by
  have h0 : (m.setReg R.IP 0).WF := WF_setReg _ _ _ hm (by decide)
  unfold load
  simp only
  split
  · exact h0
  · have hM := foldl_encode_preserves_WF s.reverse (fun x hx => hs x (List.mem_reverse.mp hx))
      _ h0
    generalize s.reverse.foldl encode (m.setReg R.IP 0) = M at hM
    have h1 : (M.setReg R.SB M.ip).WF := WF_setReg _ _ _ hM (hM.2 _)
    have h2 : ((M.setReg R.SB M.ip).setReg R.SP (M.setReg R.SB M.ip).rbp).WF :=
      WF_setReg _ _ _ h1 (h1.2 _)
    exact WF_setReg _ _ _ h2 (toWord_lt _)

/-- The byte range is an invariant of `step`. -/
theorem step_preserves_WF (m : Machine) (hm : m.WF) : (step m).machine.WF := by
  rw [step_eq, decodeNext_eq]
  exact execute_preserves_WF _ _ (WF_setReg _ _ _ hm (toWord_lt _))
    ⟨hm.1 _, hm.1 _, hm.1 _, hm.1 _⟩

/-! ## Where faults come from -/

/-- On a byte-valued machine an `std::out_of_range` leaving dispatch comes
from a register-index operand `≥ 8` or from a guarded address below SB
(`memory.at` itself never throws). -/
theorem execute_out_of_range_cause (m : Machine) (ins : Instruction) (hm : m.WF)
    (hi : ins.WF) (h : (execute m ins).error = some .out_of_range) :
    (∃ op, Operation.ofWord ins.operation = some op ∧
      ((op.operand1IsRegister = true ∧ 8 ≤ ins.operand1) ∨
       (op.operand2IsRegister = true ∧ 8 ≤ ins.operand2))) ∨
    (∃ a ∈ guardedAddresses m ins, a < m.registers R.SB) := by
  by_contra hcon
  rw [not_or] at hcon
  obtain ⟨hreg, hmem⟩ := hcon
  have hbyte : ∀ r, m.registers r < MemoryAmount := hm.2
  have hb1 : ins.operand1 < MemoryAmount := hi.2.1
  have hw := toWord_lt ((m.registers R.SP : Int) - 1)
  revert h
  unfold execute
  unfold guardedAddresses at hmem
  split
  case h_31 => simp [Outcome.error]
  all_goals
    rename_i heq
    have hr := fun h => hreg ⟨_, heq, h⟩
    rw [heq] at hmem
    simp only [Operation.operand1IsRegister, Operation.operand2IsRegister, true_and, false_and,
      or_false, false_or, not_or, not_le, not_false_eq_true, Bool.false_eq_true,
      List.mem_cons, List.mem_singleton, List.not_mem_nil, exists_eq_left, false_and,
      exists_false, exists_eq_or_imp, not_and, not_lt, not_exists] at hr hmem
  all_goals
    try simp only [mov_r_mr, mov_mr_i, mov_mr_r, add_r_i, sub_r_i, registers_at, registers_at_put,
      memory_at, memory_at_put, divide, bind, Except.bind, pure, Except.pure, attempt,
      Outcome.andThen, flags_eq, RegCount, Machine.rbp]
  all_goals
    simp only [imp_false, not_or, not_le, not_false_eq_true] at hr
    try simp only [← not_lt] at hmem
    intro h
    simp [hr, hmem, hbyte, hb1, Outcome.error] at h
  all_goals
    try simp [Machine.setReg, update, hmem, hw] at h
  all_goals
    split_ifs at h <;> simp at h

/-- Dispatch never throws `ERR_INVALID_IP`, and a division fault comes from
one of the two `div` cases with a zero divisor. -/
theorem execute_error_cases (m : Machine) (ins : Instruction) :
    (execute m ins).error = none ∨ (execute m ins).error = some .out_of_range ∨
    ((execute m ins).error = some .division_by_zero ∧
      ((Operation.ofWord ins.operation = some OP_DIV_R_I ∧ ins.operand2 = 0) ∨
       (Operation.ofWord ins.operation = some OP_DIV_R_R ∧ m.registers ins.operand2 = 0))) := by
  unfold execute
  split
  case h_31 => left; rfl
  all_goals
    rename_i heq
    simp only [heq, Option.some.injEq, reduceCtorEq, false_and, or_false, false_or, true_and,
      and_false]
  all_goals
    try simp only [mov_r_mr, mov_mr_i, mov_mr_r, add_r_i, sub_r_i, registers_at,
      registers_at_put, memory_at, memory_at_put, divide, bind, Except.bind, pure, Except.pure,
      attempt, Outcome.andThen, flags_eq, RegCount, Machine.rbp]
  all_goals first
    | (left; rfl)
    | (repeat' (split_ifs <;> try simp [Outcome.error, *]))

theorem fresh_WF : Machine.fresh.WF :=
  ⟨fun _ => Nat.zero_lt_succ 255, fun _ => Nat.zero_lt_succ 255⟩

theorem divFaultMachine_WF : divFaultMachine.WF := by
  refine WF_setReg _ _ _ (load_preserves_WF _ _ fresh_WF ?_) (by decide)
  intro x hx
  simp only [List.mem_singleton] at hx
  subst hx
  simp only [Instruction.WF, Operation.code]
  decide

/-! ## Straight-line runs -/

theorem step_straightLine_ip (m m1 : Machine) (hs : straightLine (decodeNext m).1 = true)
    (h : step m = .done m1) :
    m1.registers R.IP = toWord ((m.registers R.IP : Int) - 4) := by
  have e := execute_straightLine_ip (decodeNext m).2 (decodeNext m).1 hs
  rw [← step_eq, h] at e
  rw [decodeNext_eq] at e
  simpa [Outcome.machine, Machine.setReg, Machine.ip] using e

theorem straightSteps_ip (k : Nat) :
    ∀ (m m1 : Machine), m.registers R.IP < 256 → straightSteps k m = some m1 →
      m1.registers R.IP = toWord ((m.registers R.IP : Int) - 4 * k) := by
  induction k with
  | zero =>
    intro m m1 hlt h
    simp only [straightSteps, Option.some.injEq] at h
    subst h
    unfold toWord
    omega
  | succ k ih =>
    intro m m1 hlt h
    simp only [straightSteps] at h
    split at h
    · rename_i hs
      split at h
      · rename_i m2 hstep
        have h2 := step_straightLine_ip m m2 hs hstep
        rw [ih m2 m1 (by rw [h2]; exact toWord_lt _) h, h2]
        unfold toWord
        push_cast
        omega
      · cases h
    · cases h

theorem executeLoop_succ (fuel : Nat) (m m1 : Machine) (hip : m.registers R.IP ≠ 0)
    (h : step m = .done m1) :
    executeLoop (fuel + 1) m = (executeLoop fuel m1).map fun r => (r.1 + 1, r.2) := by
  rw [executeLoop]
  simp only [Machine.ip, hip, if_false, h]

theorem step_mov_loaded (mach : Machine) (x : Instruction) (t : List Instruction)
    (hlen : t.length + 1 ≤ 63) (h : Loaded mach (x :: t))
    (hop : x.operation = OP_MOV_R_I.code) (hr1 : R.A ≤ x.operand1) (hr2 : x.operand1 ≤ R.D) :
    straightLine (decodeNext mach).1 = true ∧
    step mach = .done ((decodeNext mach).2.setReg x.operand1 x.operand2) ∧
    Loaded ((decodeNext mach).2.setReg x.operand1 x.operand2) t := by
  obtain ⟨hd, hl⟩ := decodeNext_loaded mach x t hlen h
  simp only [R.A, R.D] at hr1 hr2
  have hlt : x.operand1 < 8 := by omega
  have hne : x.operand1 ≠ 0 := by omega
  refine ⟨?_, ?_, ?_, ?_⟩
  · rw [hd]
    simp [straightLine, hop, Operation.code, Operation.ofWord, Operation.isJump,
      Operation.writesOperand1, hne]
  · rw [step_eq, hd]
    simp [execute, hop, Operation.code, Operation.ofWord, registers_at_put, attempt, hlt]
  · rw [← hl.1]
    simp [Machine.setReg, update, Ne.symm hne]
  · exact hl.2

theorem step_final (mach : Machine) (h : Ready mach []) :
    (decodeNext mach).1 = ⟨0, 0, 0, 0⟩ ∧ step mach = .done (mach.setReg R.IP 0) := by
  obtain ⟨⟨hip, -⟩, hz⟩ := h
  have hip1 : mach.registers R.IP = 255 := by rw [hip]; rfl
  have e : decodeNext mach = (⟨0, 0, 0, 0⟩, mach.setReg R.IP 251) := by
    rw [decodeNext_eq]
    simp only [Machine.ip, hip1]
    have w3 : toWord (((255 : Nat) : Int) - 3) = 252 := rfl
    have w2 : toWord (((255 : Nat) : Int) - 2) = 253 := rfl
    have w1 : toWord (((255 : Nat) : Int) - 1) = 254 := rfl
    have w4 : toWord (((255 : Nat) : Int) - 4) = 251 := rfl
    rw [w3, w2, w1, w4, hz 252 (by omega) (by omega), hz 253 (by omega) (by omega),
      hz 254 (by omega) (by omega), hz 255 (by omega) (by omega)]
  refine ⟨by rw [e], ?_⟩
  rw [step_eq, e]
  simp [execute, Operation.ofWord, registers_at_put, attempt, Machine.setReg, update_update]

theorem run_moves (t : List Instruction) :
    ∀ (mach : Machine) (fuel : Nat), t.length ≤ 63 → Ready mach t →
      (∀ x ∈ t, x.operation = OP_MOV_R_I.code ∧ R.A ≤ x.operand1 ∧ x.operand1 ≤ R.D) →
      t.length + 1 ≤ fuel →
      ∃ mN mf, straightSteps t.length mach = some mN ∧ mN.registers R.IP = 255 ∧
        (decodeNext mN).1 = ⟨0, 0, 0, 0⟩ ∧ step mN = .done mf ∧
        executeLoop fuel mach = some (t.length + 1, .done mf) ∧
        mf.registers R.IP = 0 ∧
        (∀ r, R.A ≤ r → r ≤ R.D → mf.registers r = lastMove r (mach.registers r) t) ∧
        mf.registers R.SP = mach.registers R.SP ∧
        mf.registers R.SB = mach.registers R.SB := by
  induction t with
  | nil =>
    intro mach fuel _ hr _ hfuel
    obtain ⟨hd, hstep⟩ := step_final mach hr
    have hip1 : mach.registers R.IP = 255 := by rw [hr.1.1]; rfl
    obtain ⟨f, rfl⟩ : ∃ f, fuel = f + 1 := ⟨fuel - 1, by simp at hfuel; omega⟩
    refine ⟨mach, mach.setReg R.IP 0, rfl, hip1, hd, hstep, ?_, ?_, ?_, ?_, ?_⟩
    · rw [executeLoop_succ f mach _ (by rw [hip1]; decide) hstep,
        executeLoop_halted f _ (by simp [Machine.ip, Machine.setReg])]
      rfl
    · simp [Machine.setReg]
    · intro r hr1 hr2
      simp only [R.A] at hr1
      have : r ≠ 0 := by omega
      simp [lastMove, Machine.setReg, update, this]
    · simp [Machine.setReg, update]
    · simp [Machine.setReg, update]
  | cons x t ih =>
    intro mach fuel hlen hr hprog hfuel
    have hlen1 : t.length + 1 ≤ 63 := by simpa using hlen
    obtain ⟨hop, hr1, hr2⟩ := hprog x (List.mem_cons_self _ _)
    obtain ⟨hsl, hstep, hl⟩ := step_mov_loaded mach x t hlen1 hr.1 hop hr1 hr2
    generalize hm1 : (decodeNext mach).2.setReg x.operand1 x.operand2 = m1 at hstep hl
    have hmem : m1.memory = mach.memory := by
      rw [← hm1, decodeNext_eq]; rfl
    have hregs : ∀ q, q ≠ R.IP → m1.registers q
        = if q = x.operand1 then x.operand2 else mach.registers q := by
      intro q hq
      rw [← hm1, decodeNext_eq]
      simp only [Machine.setReg, update]
      split
      · rfl
      · simp [hq]
    obtain ⟨f, rfl⟩ : ∃ f, fuel = f + 1 := ⟨fuel - 1, by simp at hfuel; omega⟩
    obtain ⟨mN, mf, a1, a2, a3, a4, a5, a6, a7, a8, a9⟩ := ih m1 f (by omega)
      ⟨hl, fun a h1 h2 => by rw [hmem]; exact hr.2 a h1 h2⟩
      (fun y hy => hprog y (List.mem_cons_of_mem _ hy)) (by simp at hfuel; omega)
    have hipne : mach.registers R.IP ≠ 0 := by
      rw [hr.1.1]
      simp only [List.length_cons]
      unfold toWord; omega
    simp only [R.A, R.D] at hr1 hr2
    refine ⟨mN, mf, ?_, a2, a3, a4, ?_, a6, ?_, ?_, ?_⟩
    · simp only [List.length_cons, straightSteps, hsl, if_true, hstep]
      exact a1
    · rw [executeLoop_succ f mach m1 hipne hstep, a5]
      rfl
    · intro r h1 h2
      rw [a7 r h1 h2, hregs r (by simp only [R.A] at h1; show r ≠ 0; omega)]
      simp only [lastMove]
      by_cases h : r = x.operand1
      · simp [h]
      · simp [h, Ne.symm h]
    · rw [a8, hregs _ (by decide)]
      have : ¬ (R.SP = x.operand1) := by simp only [R.SP]; omega
      simp [this]
    · rw [a9, hregs _ (by decide)]
      have : ¬ (R.SB = x.operand1) := by simp only [R.SB]; omega
      simp [this]

/-- What `load` of 1 .. 63 instructions leaves outside the code region. -/
theorem load_frame (m : Machine) (s : List Instruction) (h1 : 1 ≤ s.length)
    (h2 : s.length ≤ 63) :
    (∀ a, 4 * s.length ≤ a → (load m s).memory a = m.memory a) ∧
    (load m s).registers R.SP = 4 * s.length ∧
    (load m s).registers R.SB = 4 * s.length ∧
    (∀ r, 3 ≤ r → (load m s).registers r = m.registers r) := by
  obtain ⟨e1, e2, e3, -⟩ := encodeAll_spec (m.setReg R.IP 0) (by simp [Machine.setReg]) s h2
  rw [load_eq m s h1]
  generalize s.reverse.foldl encode (m.setReg R.IP 0) = M at e1 e2 e3
  simp only [Machine.ip, e1]
  refine ⟨?_, ?_, ?_, ?_⟩
  · intro a ha
    simpa [Machine.setReg, Machine.setMem] using e3 a ha
  · simp [Machine.setReg, update]
  · simp [Machine.setReg, update]
  · intro r hr
    have h0 : r ≠ 0 := by omega
    have h1 : r ≠ 1 := by omega
    have h2 : r ≠ 2 := by omega
    simp [Machine.setReg, update, h0, h1, h2, e2 r h0]


/-! ## Claims -/

/-- Claim C1 (round trip of load and decode): for every instruction sequence
`s` of length `N` with `1 ≤ N ≤ 63`, after `load` on any machine, `N` calls
of `decodeNext` return `s[0], ..., s[N-1]` in that order; the `k`-th call
starts at `IP = 4(N-k) - 1` and returns exactly `s[k]`. -/
theorem load_decode_roundtrip (m : Machine) (s : List Instruction)
    (h1 : 1 ≤ s.length) (h2 : s.length ≤ 63) :
    (decodeTimes s.length (load m s)).1 = s ∧
    ∀ k (hk : k < s.length),
      (decodeTimes k (load m s)).2.registers R.IP = 4 * (s.length - k) - 1 ∧
      (decodeNext (decodeTimes k (load m s)).2).1 = s[k] := by
  have hL := load_loaded m s h1 h2
  constructor
  · have := (decodeTimes_loaded s h2 s.length (load m s) (le_refl _) hL).1
    simpa using this
  · intro k hk
    obtain ⟨-, hl⟩ := decodeTimes_loaded s h2 k (load m s) (by omega) hL
    have hd : s.drop k = s[k] :: s.drop (k + 1) := List.drop_eq_getElem_cons hk
    rw [hd] at hl
    have hlen : (s.drop (k + 1)).length + 1 ≤ 63 := by simp; omega
    refine ⟨?_, (decodeNext_loaded _ _ _ hlen hl).1⟩
    rw [hl.1]
    simp only [List.length_cons, List.length_drop]
    unfold toWord; omega

/-- Witness of C1 on the two-instruction `sampleProgram`. -/
theorem load_decode_roundtrip_witness :
    1 ≤ sampleProgram.length ∧ sampleProgram.length ≤ 63 ∧
    (decodeTimes sampleProgram.length (load Machine.fresh sampleProgram)).1 = sampleProgram :=
  ⟨by decide, by decide,
    (load_decode_roundtrip Machine.fresh sampleProgram (by decide) (by decide)).1⟩

/-- Claim C2 (load postcondition): for every sequence `s` of length `N` with
`1 ≤ N ≤ 63`, after `load` the cell at address `4(N-1-k)+j` holds field `j`
of `s[k]`; `IP = 4N - 1`, `SP = SB = 4N`; every cell at an address `≥ 4N` and
the registers A, B, C, D, F are as before. -/
theorem load_postcondition (m : Machine) (s : List Instruction)
    (h1 : 1 ≤ s.length) (h2 : s.length ≤ 63) :
    (∀ k (hk : k < s.length) j, j < 4 →
      (load m s).memory (4 * (s.length - 1 - k) + j) = s[k].words j) ∧
    (load m s).registers R.IP = 4 * s.length - 1 ∧
    (load m s).registers R.SP = 4 * s.length ∧
    (load m s).registers R.SB = 4 * s.length ∧
    (∀ a, 4 * s.length ≤ a → (load m s).memory a = m.memory a) ∧
    (∀ r, R.A ≤ r → r ≤ R.F → (load m s).registers r = m.registers r) := by
  obtain ⟨e1, e2, e3, e4⟩ := encodeAll_spec (m.setReg R.IP 0) (by simp [Machine.setReg]) s h2
  rw [load_eq m s h1]
  generalize s.reverse.foldl encode (m.setReg R.IP 0) = M at e1 e2 e3 e4
  have hw : toWord (((4 * s.length : Nat) : Int) - 1) = 4 * s.length - 1 := by
    unfold toWord; omega
  simp only [Machine.ip, e1, hw]
  refine ⟨?_, ?_, ?_, ?_, ?_, ?_⟩
  · intro k hk j hj
    exact Layout_get M.memory s e4 k hk j hj
  · simp [Machine.setReg]
  · simp [Machine.setReg, update]
  · simp [Machine.setReg, update]
  · intro a ha
    simpa [Machine.setReg, Machine.setMem] using e3 a ha
  · intro r hr1 hr2
    have h0 : r ≠ 0 := by simp only [R.A] at hr1; omega
    have h1 : r ≠ 1 := by simp only [R.A] at hr1; omega
    have h2 : r ≠ 2 := by simp only [R.A] at hr1; omega
    simp [Machine.setReg, update, h0, h1, h2, e2 r h0]

/-- Witness of C2 on the two-instruction `sampleProgram`: `IP = 7`,
`SP = SB = 8`. -/
theorem load_postcondition_witness :
    1 ≤ sampleProgram.length ∧ sampleProgram.length ≤ 63 ∧
    (load Machine.fresh sampleProgram).registers R.IP = 4 * sampleProgram.length - 1 ∧
    (load Machine.fresh sampleProgram).registers R.SP = 4 * sampleProgram.length ∧
    (load Machine.fresh sampleProgram).registers R.SB = 4 * sampleProgram.length :=
  ⟨by decide, by decide,
    (load_postcondition Machine.fresh sampleProgram (by decide) (by decide)).2.1,
    (load_postcondition Machine.fresh sampleProgram (by decide) (by decide)).2.2.1,
    (load_postcondition Machine.fresh sampleProgram (by decide) (by decide)).2.2.2.1⟩

/-- Claim C3 (halt determinism): `load` of the empty sequence sets IP to 0
and changes no memory cell and no other register; the `execute()` loop run
afterwards takes zero steps and returns the state as `load` left it, and more
generally returns any state with `IP = 0` unchanged after zero steps. -/
theorem load_empty_execute_halts (m : Machine) (fuel : Nat) :
    (load m []).registers R.IP = 0 ∧
    (load m []).memory = m.memory ∧
    (∀ r, r ≠ R.IP → (load m []).registers r = m.registers r) ∧
    executeLoop fuel (load m []) = some (0, .done (load m [])) ∧
    (∀ m0 : Machine, m0.ip = 0 → executeLoop fuel m0 = some (0, .done m0)) := by
  have hip : (load m []).ip = 0 := by simp [load, Machine.ip, Machine.setReg]
  refine ⟨hip, ?_, ?_, executeLoop_halted fuel _ hip, fun m0 h0 => executeLoop_halted fuel m0 h0⟩
  · simp [load, Machine.setReg]
  · intro r hr
    simp [load, Machine.setReg, update_other _ _ _ _ hr]

/-- Claim C4 (guard enforcement): for every machine state, address `a` and
byte `v`, dispatching `mov m, imm` (`OP_MOV_M_I a v`) faults if and only if
`a < SB`; when `a ≥ SB` it completes with `memory[a] = v`, every other cell
and every register unchanged; when it faults, the machine is unchanged. -/
theorem mov_m_i_guard (m : Machine) (a v c : Nat) (ha : a < 256) :
    ((execute m ⟨OP_MOV_M_I.code, a, v, c⟩).error ≠ none ↔ a < m.registers R.SB) ∧
    (m.registers R.SB ≤ a →
      ∃ m1, execute m ⟨OP_MOV_M_I.code, a, v, c⟩ = .done m1 ∧ m1.memory a = v ∧
        (∀ b, b ≠ a → m1.memory b = m.memory b) ∧ m1.registers = m.registers) ∧
    (a < m.registers R.SB →
      execute m ⟨OP_MOV_M_I.code, a, v, c⟩ = .fault .out_of_range m) := by
  simp only [execute, Operation.code, Operation.ofWord, memory_at_put, Machine.rbp]
  by_cases h : a < m.registers R.SB
  · simp [h, attempt, Outcome.error]
  · have h2 : m.registers R.SB ≤ a := by omega
    simp only [h, h2, ha, attempt, Outcome.error, if_true, if_false]
    refine ⟨by simp, fun _ => ⟨m.setMem a v, rfl, by simp [Machine.setMem], ?_, rfl⟩, by simp⟩
    intro b hb
    simp [Machine.setMem, update_other _ _ _ _ hb]

/-- Witness of C4: after loading a two-instruction program (`SB = 8`) a
write to address 3 faults and a write to address 8 succeeds. -/
theorem mov_m_i_guard_witness :
    sampleMachine.registers R.SB = 8 ∧
    execute sampleMachine ⟨OP_MOV_M_I.code, 3, 1, 0⟩ = .fault .out_of_range sampleMachine ∧
    (∃ m1, execute sampleMachine ⟨OP_MOV_M_I.code, 8, 1, 0⟩ = .done m1 ∧ m1.memory 8 = 1 ∧
      (∀ b, b ≠ 8 → m1.memory b = sampleMachine.memory b) ∧
      m1.registers = sampleMachine.registers) :=
  ⟨by decide,
    (mov_m_i_guard sampleMachine 3 1 0 (by decide)).2.2 (by decide),
    (mov_m_i_guard sampleMachine 8 1 0 (by decide)).2.1 (by decide)⟩

/-- Claim C5 (code region is write-protected by every single instruction):
for every machine state and every instruction (any opcode byte, any
operands), after dispatching it, whether it completes or faults, every
memory cell whose address is below the value SB held before is unchanged. -/
theorem execute_keeps_code_region (m : Machine) (ins : Instruction) (a : Nat)
    (ha : a < m.registers R.SB) :
    (execute m ins).machine.memory a = m.memory a := by
  have key : ∀ (r : Except Fault Machine),
      (∀ m1, r = .ok m1 → m1.memory a = m.memory a) →
      (attempt m r).machine.memory a = m.memory a := fun r h1 =>
    attempt_machine (fun x => x.memory a = m.memory a) m r rfl h1
  unfold execute
  split
  case h_18 | h_19 =>
    apply andThen_machine (fun x => x.memory a = m.memory a)
    · intro e m1 h
      rw [attempt_eq_fault] at h
      rw [h.2]
    · intro m1 h
      have hm1 : m1.memory a = m.memory a := by
        revert h
        simp only [attempt_eq_done, mov_mr_i, mov_mr_r, bind_eq_ok, registers_at_eq_ok,
          memory_at_put_eq_ok]
        intro h
        obtain ⟨_, _, h⟩ := h
        try obtain ⟨_, _, h⟩ := h
        obtain ⟨_, _, rfl⟩ := h
        exact memory_setMem_below _ _ _ _ (by omega)
      apply attempt_machine (fun x => x.memory a = m.memory a) m1 _ hm1
      intro m2 h2
      simp only [add_r_i, bind_eq_ok, registers_at_eq_ok, registers_at_put_eq_ok] at h2
      obtain ⟨_, _, _, rfl⟩ := h2
      exact hm1
  case h_20 =>
    apply andThen_machine (fun x => x.memory a = m.memory a)
    · intro e m1 h
      rw [attempt_eq_fault] at h
      rw [h.2]
    · intro m1 h
      have hm1 : m1.memory a = m.memory a := by
        simp only [attempt_eq_done, sub_r_i, bind_eq_ok, registers_at_eq_ok,
          registers_at_put_eq_ok] at h
        obtain ⟨_, _, _, rfl⟩ := h
        rfl
      apply attempt_machine (fun x => x.memory a = m.memory a) m1 _ hm1
      intro m2 h2
      simp only [mov_r_mr, bind_eq_ok, registers_at_eq_ok, registers_at_put_eq_ok,
        memory_at_eq_ok] at h2
      obtain ⟨_, _, _, _, _, rfl⟩ := h2
      exact hm1
  all_goals first
    | rfl
    | (split <;> first | rfl | skip)
    | skip
  all_goals first
    | rfl
    | (apply key
       intro m1
       simp only [mov_r_mr, mov_mr_i, mov_mr_r, add_r_i, sub_r_i, bind_eq_ok, pure_eq_ok,
         map_eq_ok, registers_at_eq_ok, registers_at_put_eq_ok, memory_at_eq_ok,
         memory_at_put_eq_ok, divide_eq_ok]
       intro h
       obtain ⟨_, _, _, _, _, _, _, _, rfl⟩ := h
       first
         | rfl
         | exact memory_setMem_below _ _ _ _ (by omega))

/-- Witness of C5: on the loaded `sampleMachine` (`SB = 8`) a push leaves
code cell 3 as it was. -/
theorem execute_keeps_code_region_witness :
    3 < sampleMachine.registers R.SB ∧
    (execute sampleMachine ⟨OP_PUSH_I.code, 7, 0, 0⟩).machine.memory 3
      = sampleMachine.memory 3 :=
  ⟨by decide, execute_keeps_code_region sampleMachine ⟨OP_PUSH_I.code, 7, 0, 0⟩ 3 (by decide)⟩

/-- Claim C6 (stack discipline): for every machine state with
`SB ≤ SP ≤ 254`, all bytes `v`, `w` and distinct registers `r1`, `r2` among
A, B, C, D, dispatching `push v; push w; pop r2; pop r1` completes without a
fault and yields `r1 = v`, `r2 = w`, SP equal to its value before the first
push, and every register other than `r1`, `r2` (SB and the other general
registers among them) unchanged. -/
theorem stack_discipline (m : Machine) (v w r1 r2 : Nat)
    (hsb : m.registers R.SB ≤ m.registers R.SP) (hsp : m.registers R.SP ≤ 254)
    (h1 : R.A ≤ r1 ∧ r1 ≤ R.D) (h2 : R.A ≤ r2 ∧ r2 ≤ R.D) (hne : r1 ≠ r2) :
    ∃ m1, executeSeq m [⟨OP_PUSH_I.code, v, 0, 0⟩, ⟨OP_PUSH_I.code, w, 0, 0⟩,
        ⟨OP_POP_R.code, r2, 0, 0⟩, ⟨OP_POP_R.code, r1, 0, 0⟩] = .done m1 ∧
      m1.registers r1 = v ∧ m1.registers r2 = w ∧
      m1.registers R.SP = m.registers R.SP ∧
      (∀ q, q ≠ r1 → q ≠ r2 → m1.registers q = m.registers q) := by
  obtain ⟨h1a, h1b⟩ := h1
  obtain ⟨h2a, h2b⟩ := h2
  simp only [R.A, R.D] at h1a h1b h2a h2b
  generalize hs : m.registers R.SP = s at hsb hsp
  have t1 : toWord ((s : Int) + 1) = s + 1 := by unfold toWord; omega
  have t2 : toWord (((s + 1 : Nat) : Int) + 1) = (s + 2) % 256 := by unfold toWord; omega
  have t3 : toWord ((((s + 2) % 256 : Nat) : Int) - 1) = s + 1 := by unfold toWord; omega
  have t4 : toWord (((s + 1 : Nat) : Int) - 1) = s := by unfold toWord; omega
  -- first push: cell s receives v, SP becomes s + 1
  have e1 := execute_push_i m v 0 0 (by rw [hs]; exact hsb) (by rw [hs]; omega)
  rw [hs, t1] at e1
  generalize hm1 : (m.setMem s v).setReg R.SP (s + 1) = m1 at e1
  have m1sp : m1.registers R.SP = s + 1 := by rw [← hm1]; simp [Machine.setReg]
  have m1sb : m1.registers R.SB = m.registers R.SB := by
    rw [← hm1]; simp [Machine.setReg, Machine.setMem, update]
  -- second push: cell s + 1 receives w, SP becomes (s + 2) mod 256
  have e2 := execute_push_i m1 w 0 0 (by rw [m1sp, m1sb]; omega) (by rw [m1sp]; omega)
  rw [m1sp, t2] at e2
  generalize hm2 : (m1.setMem (s + 1) w).setReg R.SP ((s + 2) % 256) = m2 at e2
  have m2sp : m2.registers R.SP = (s + 2) % 256 := by rw [← hm2]; simp [Machine.setReg]
  have m2sb : m2.registers R.SB = m.registers R.SB := by
    rw [← hm2, ← m1sb]; simp [Machine.setReg, Machine.setMem, update]
  -- first pop: SP back to s + 1, r2 reads cell s + 1
  have e3 := execute_pop_r m2 r2 0 0 (by omega) (by rw [m2sp, t3, m2sb]; omega)
  rw [m2sp, t3] at e3
  generalize hm3 : (m2.setReg R.SP (s + 1)).setReg r2 (m2.memory (s + 1)) = m3 at e3
  have hr2sp : r2 ≠ R.SP := by simp only [R.SP]; omega
  have hr2sb : r2 ≠ R.SB := by simp only [R.SB]; omega
  have m3sp : m3.registers R.SP = s + 1 := by
    rw [← hm3]; simp [Machine.setReg, update, Ne.symm hr2sp]
  have m3sb : m3.registers R.SB = m.registers R.SB := by
    rw [← hm3, ← m2sb]; simp [Machine.setReg, update, Ne.symm hr2sb]
  -- second pop: SP back to s, r1 reads cell s
  have e4 := execute_pop_r m3 r1 0 0 (by omega) (by rw [m3sp, t4, m3sb]; omega)
  rw [m3sp, t4] at e4
  refine ⟨(m3.setReg R.SP s).setReg r1 (m3.memory s),
    by simp only [executeSeq, e1, e2, e3, e4, Outcome.andThen], ?_, ?_, ?_, ?_⟩
  · simp [Machine.setReg, ← hm3, ← hm2, ← hm1, Machine.setMem, update]
  · have : r2 ≠ 1 := hr2sp
    simp [Machine.setReg, ← hm3, ← hm2, ← hm1, Machine.setMem, update, Ne.symm hne, this]
  · have : ¬ 1 = r1 := by omega
    have : ¬ 1 = r2 := by omega
    simp [Machine.setReg, ← hm3, ← hm2, ← hm1, Machine.setMem, update, *]
  · intro q hq1 hq2
    simp only [Machine.setReg, ← hm3, ← hm2, ← hm1, Machine.setMem, update, hq1, hq2, if_false]
    by_cases hq : q = 1
    · subst hq; simp [← hs]
    · simp [hq]

/-- Witness of C6: `push 7; push 9; pop B; pop A` on the loaded
`sampleMachine` gives `A = 7`, `B = 9` and restores SP. -/
theorem stack_discipline_witness :
    sampleMachine.registers R.SB ≤ sampleMachine.registers R.SP ∧
    sampleMachine.registers R.SP ≤ 254 ∧
    ∃ m1, executeSeq sampleMachine [⟨OP_PUSH_I.code, 7, 0, 0⟩, ⟨OP_PUSH_I.code, 9, 0, 0⟩,
        ⟨OP_POP_R.code, R.B, 0, 0⟩, ⟨OP_POP_R.code, R.A, 0, 0⟩] = .done m1 ∧
      m1.registers R.A = 7 ∧ m1.registers R.B = 9 ∧
      m1.registers R.SP = sampleMachine.registers R.SP ∧
      (∀ q, q ≠ R.A → q ≠ R.B → m1.registers q = sampleMachine.registers q) :=
  ⟨by decide, by decide,
    stack_discipline sampleMachine 7 9 R.A R.B (by decide) (by decide) (by decide) (by decide)
      (by decide)⟩

/-- Claim C7 (arithmetic is exact modulo 256 and does not trap): for every
machine state, valid register index `r` and byte `x`, `add/sub/mul r, imm x`
complete and set `r` to `(old r + x) mod 256`, `(old r - x) mod 256`,
`(old r * x) mod 256`, every other register and all memory unchanged;
`div r, imm x` with `x ≠ 0` sets `r` to `old r / x`.  The register-register
forms do the same with `x` the old value of the second register `r2`. -/
theorem arithmetic_wraps (m : Machine) (r r2 x c : Nat) (hr : r < 8) (hr2 : r2 < 8) :
    execute m ⟨OP_ADD_R_I.code, r, x, c⟩
      = .done (m.setReg r ((m.registers r + x) % 256)) ∧
    execute m ⟨OP_SUB_R_I.code, r, x, c⟩
      = .done (m.setReg r (((m.registers r : Int) - x) % 256).toNat) ∧
    execute m ⟨OP_MUL_R_I.code, r, x, c⟩
      = .done (m.setReg r ((m.registers r * x) % 256)) ∧
    (x ≠ 0 → m.registers r < 256 →
      execute m ⟨OP_DIV_R_I.code, r, x, c⟩ = .done (m.setReg r (m.registers r / x))) ∧
    execute m ⟨OP_ADD_R_R.code, r, r2, c⟩
      = .done (m.setReg r ((m.registers r + m.registers r2) % 256)) ∧
    execute m ⟨OP_SUB_R_R.code, r, r2, c⟩
      = .done (m.setReg r (((m.registers r : Int) - m.registers r2) % 256).toNat) ∧
    execute m ⟨OP_MUL_R_R.code, r, r2, c⟩
      = .done (m.setReg r ((m.registers r * m.registers r2) % 256)) ∧
    (m.registers r2 ≠ 0 → m.registers r < 256 →
      execute m ⟨OP_DIV_R_R.code, r, r2, c⟩
        = .done (m.setReg r (m.registers r / m.registers r2))) := by
  refine ⟨?_, ?_, ?_, ?_, ?_, ?_, ?_, ?_⟩
  all_goals
    simp only [execute, Operation.code, Operation.ofWord, add_r_i, sub_r_i, registers_at,
      registers_at_put, divide, attempt, bind, Except.bind, hr, hr2, toWord_add, toWord_mul,
      if_true]
  · rfl
  · intro hx hlt
    simp [hx, toWord_div _ _ hlt]
  · rfl
  · intro hx hlt
    simp [hx, toWord_div _ _ hlt]

/-- Witness of C7: `A = 250; add A, 10` gives `A = 4`. -/
theorem arithmetic_wraps_witness :
    execute (Machine.fresh.setReg R.A 250) ⟨OP_ADD_R_I.code, R.A, 10, 0⟩
      = .done ((Machine.fresh.setReg R.A 250).setReg R.A 4) :=
  (arithmetic_wraps (Machine.fresh.setReg R.A 250) R.A R.B 10 0 (by decide) (by decide)).1

/-- Counterexample to C8 as stated: on `divFaultMachine` (next instruction
`div rax, rbx` in cells 0 .. 3, `IP = 3`, `A = 5`, `B = 0`) the step raises
the division fault, but IP is 255 afterwards, not the 3 it held before the
step began. -/
theorem div_fault_moves_ip :
    divFaultMachine.registers R.IP = 3 ∧
    divFaultMachine.memory 0 = OP_DIV_R_R.code ∧ divFaultMachine.memory 1 = R.A ∧
    divFaultMachine.memory 2 = R.B ∧ divFaultMachine.memory 3 = 0 ∧
    divFaultMachine.registers R.A = 5 ∧ divFaultMachine.registers R.B = 0 ∧
    (step divFaultMachine).error = some .division_by_zero ∧
    (step divFaultMachine).machine.registers R.IP = 255 ∧
    (step divFaultMachine).machine.registers R.IP ≠ divFaultMachine.registers R.IP := by
  decide

/-- Claim C8, amended (division fault): for every machine state whose next
instruction (the four cells ending at IP) is `div r1, imm` with immediate 0,
or `div r1, r2` with `r2` holding 0 when the division reads it (after the
fetch has moved IP), register indices valid, `step` raises the
division-by-zero fault; after the fault all memory cells and every register
other than IP hold the values they had before the step began, and IP is
`(old IP - 4) mod 256`. -/
theorem div_fault_state (m : Machine) (r1 y c : Nat) (h1 : r1 < 8)
    (hcells : m.memory (toWord ((m.ip : Int) - 2)) = r1 ∧
      m.memory (toWord ((m.ip : Int) - 1)) = y ∧ m.memory m.ip = c)
    (hdiv : (m.memory (toWord ((m.ip : Int) - 3)) = OP_DIV_R_I.code ∧ y = 0) ∨
      (m.memory (toWord ((m.ip : Int) - 3)) = OP_DIV_R_R.code ∧ y < 8 ∧
        (m.setReg R.IP (toWord ((m.ip : Int) - 4))).registers y = 0)) :
    ∃ m1, step m = .fault .division_by_zero m1 ∧ m1.memory = m.memory ∧
      (∀ q, q ≠ R.IP → m1.registers q = m.registers q) ∧
      (m1.registers R.IP : Int) = ((m.ip : Int) - 4) % 256 := by
  obtain ⟨c1, c2, c3⟩ := hcells
  refine ⟨m.setReg R.IP (toWord ((m.ip : Int) - 4)), ?_, rfl, ?_, ?_⟩
  · rw [step_eq, decodeNext_eq]
    simp only [c1, c2, c3]
    rcases hdiv with ⟨hop, hy⟩ | ⟨hop, hy, hz⟩
    · rw [hop]
      simp [execute, Operation.code, Operation.ofWord, registers_at, divide, attempt, bind,
        Except.bind, h1, hy]
    · rw [hop]
      simp [execute, Operation.code, Operation.ofWord, registers_at, divide, attempt, bind,
        Except.bind, h1, hy, hz]
  · intro q hq
    simp [Machine.setReg, update_other _ _ _ _ hq]
  · simp only [Machine.setReg, update_same, toWord]
    omega

/-- Witness of C8 amended: `A = 5; B = 0; div A, B` on `divFaultMachine`. -/
theorem div_fault_state_witness :
    ∃ m1, step divFaultMachine = .fault .division_by_zero m1 ∧
      m1.memory = divFaultMachine.memory ∧
      (∀ q, q ≠ R.IP → m1.registers q = divFaultMachine.registers q) ∧
      (m1.registers R.IP : Int) = ((divFaultMachine.ip : Int) - 4) % 256 :=
  div_fault_state divFaultMachine R.A R.B 0 (by decide)
    ⟨by decide, by decide, by decide⟩ (Or.inr ⟨by decide, by decide, by decide⟩)

/-- Claim C9 (compare sets exactly the two flag bits): for every machine
state and valid register indices `r1`, `r2`, dispatching `cmp r1, r2` (resp.
`cmp r1, imm x`) completes and leaves F with bit 0 set iff `old r1 = old r2`
(resp. `x`), bit 1 set iff `old r1 < old r2` (resp. `x`), bits 2 .. 7 as
before; every register other than F and all memory are unchanged.  The
indices may be F itself. -/
theorem compare_sets_flags (m : Machine) (r1 r2 x c : Nat) (h1 : r1 < 8) (h2 : r2 < 8) :
    (∃ m1, execute m ⟨OP_CMP_R_R.code, r1, r2, c⟩ = .done m1 ∧
      m1.registers R.F % 2 = (if m.registers r1 = m.registers r2 then 1 else 0) ∧
      m1.registers R.F / 2 % 2 = (if m.registers r1 < m.registers r2 then 1 else 0) ∧
      m1.registers R.F / 4 = m.registers R.F / 4 ∧
      (∀ q, q ≠ R.F → m1.registers q = m.registers q) ∧
      m1.memory = m.memory) ∧
    (∃ m1, execute m ⟨OP_CMP_R_I.code, r1, x, c⟩ = .done m1 ∧
      m1.registers R.F % 2 = (if m.registers r1 = x then 1 else 0) ∧
      m1.registers R.F / 2 % 2 = (if m.registers r1 < x then 1 else 0) ∧
      m1.registers R.F / 4 = m.registers R.F / 4 ∧
      (∀ q, q ≠ R.F → m1.registers q = m.registers q) ∧
      m1.memory = m.memory) :=
  ⟨⟨compare m (m.registers r1) (m.registers r2), execute_cmp_r_r m r1 r2 c h1 h2,
      compare_spec m _ _⟩,
    ⟨compare m (m.registers r1) x, execute_cmp_r_i m r1 x c h1, compare_spec m _ _⟩⟩

/-- Witness of C9: `cmp rfx, rax` with `F = 255`, `A = 255`: the operands
are equal, so F ends as 253 (bit 0 set, bit 1 cleared, bits 2 .. 7 kept). -/
theorem compare_sets_flags_witness :
    ∃ m1, execute ((Machine.fresh.setReg R.F 255).setReg R.A 255)
        ⟨OP_CMP_R_R.code, R.F, R.A, 0⟩ = .done m1 ∧ m1.registers R.F = 253 := by
  obtain ⟨⟨m1, he, hb0, hb1, hb2, -, -⟩, -⟩ :=
    compare_sets_flags ((Machine.fresh.setReg R.F 255).setReg R.A 255) R.F R.A 0 0
      (by decide) (by decide)
  refine ⟨m1, he, ?_⟩
  have e0 : m1.registers R.F % 2 = 1 := by rw [hb0]; decide
  have e1 : m1.registers R.F / 2 % 2 = 0 := by rw [hb1]; decide
  have e2 : m1.registers R.F / 4 = 63 := by rw [hb2]; decide
  omega

/-- Claim C10 (compare then branch): for every machine state, valid register
indices `r1`, `r2` and byte `t`, dispatching `cmp r1, r2` followed by `jea t`
leaves `IP = t` if `old r1 = old r2` and IP unchanged otherwise; followed
instead by `jer t` it leaves `IP = (IP - t) mod 256` if `old r1 = old r2` and
IP unchanged otherwise. -/
theorem compare_then_branch (m : Machine) (r1 r2 t c : Nat) (h1 : r1 < 8) (h2 : r2 < 8) :
    (∃ m2, executeSeq m [⟨OP_CMP_R_R.code, r1, r2, c⟩, ⟨OP_JEA_I.code, t, 0, 0⟩] = .done m2 ∧
      m2.registers R.IP = (if m.registers r1 = m.registers r2 then t else m.registers R.IP)) ∧
    (∃ m2, executeSeq m [⟨OP_CMP_R_R.code, r1, r2, c⟩, ⟨OP_JER_I.code, t, 0, 0⟩] = .done m2 ∧
      (m2.registers R.IP : Int) = (if m.registers r1 = m.registers r2
        then ((m.registers R.IP : Int) - t) % 256 else m.registers R.IP)) := by
  have hm1 := execute_cmp_r_r m r1 r2 c h1 h2
  obtain ⟨hbit, -, -, hreg, -⟩ := compare_spec m (m.registers r1) (m.registers r2)
  generalize compare m (m.registers r1) (m.registers r2) = m1 at hm1 hbit hreg
  have hip : m1.registers R.IP = m.registers R.IP := hreg _ (by decide)
  constructor
  · simp only [executeSeq, hm1, Outcome.andThen]
    by_cases he : m.registers r1 = m.registers r2
    · simp only [he, if_true] at hbit ⊢
      simp [execute, Operation.code, Operation.ofWord, flags_eq, hbit, Machine.setReg]
    · simp only [he, if_false] at hbit ⊢
      simp [execute, Operation.code, Operation.ofWord, flags_eq, hbit, hip]
  · simp only [executeSeq, hm1, Outcome.andThen]
    by_cases he : m.registers r1 = m.registers r2
    · simp only [he, if_true] at hbit ⊢
      simp [execute, Operation.code, Operation.ofWord, flags_eq, hbit, Machine.setReg,
        Machine.ip, hip, toWord]
      omega
    · simp only [he, if_false] at hbit ⊢
      simp [execute, Operation.code, Operation.ofWord, flags_eq, hbit, hip]

/-- Witness of C10: with `A = 3`, `B = 3` the `jea 40` after `cmp A, B` is
taken (IP becomes 40); with `A = 3`, `B = 4` it falls through (IP stays 7). -/
theorem compare_then_branch_witness :
    (∃ m2, executeSeq ((sampleMachine.setReg R.A 3).setReg R.B 3)
        [⟨OP_CMP_R_R.code, R.A, R.B, 0⟩, ⟨OP_JEA_I.code, 40, 0, 0⟩] = .done m2 ∧
      m2.registers R.IP = 40) ∧
    (∃ m2, executeSeq ((sampleMachine.setReg R.A 3).setReg R.B 4)
        [⟨OP_CMP_R_R.code, R.A, R.B, 0⟩, ⟨OP_JEA_I.code, 40, 0, 0⟩] = .done m2 ∧
      m2.registers R.IP = 7) :=
  ⟨(compare_then_branch ((sampleMachine.setReg R.A 3).setReg R.B 3) R.A R.B 40 0
      (by decide) (by decide)).1,
    (compare_then_branch ((sampleMachine.setReg R.A 3).setReg R.B 4) R.A R.B 40 0
      (by decide) (by decide)).1⟩

/-- Claim C13 (push writes before it adjusts): for every machine state and
byte `v`, dispatching `push v` faults if and only if `SP < SB`; when it
faults, SP, every other register and all memory are unchanged; when it
completes, `memory[old SP] = v`, `SP = (old SP + 1) mod 256`, and every other
register and memory cell is unchanged. -/
theorem push_writes_then_adjusts (m : Machine) (v b c : Nat) (hsp : m.registers R.SP < 256) :
    ((execute m ⟨OP_PUSH_I.code, v, b, c⟩).error ≠ none
      ↔ m.registers R.SP < m.registers R.SB) ∧
    (m.registers R.SP < m.registers R.SB →
      execute m ⟨OP_PUSH_I.code, v, b, c⟩ = .fault .out_of_range m) ∧
    (m.registers R.SB ≤ m.registers R.SP →
      ∃ m1, execute m ⟨OP_PUSH_I.code, v, b, c⟩ = .done m1 ∧
        m1.memory (m.registers R.SP) = v ∧
        m1.registers R.SP = (m.registers R.SP + 1) % 256 ∧
        (∀ a, a ≠ m.registers R.SP → m1.memory a = m.memory a) ∧
        (∀ q, q ≠ R.SP → m1.registers q = m.registers q)) := by
  have hdone : m.registers R.SB ≤ m.registers R.SP →
      ∃ m1, execute m ⟨OP_PUSH_I.code, v, b, c⟩ = .done m1 ∧
        m1.memory (m.registers R.SP) = v ∧
        m1.registers R.SP = (m.registers R.SP + 1) % 256 ∧
        (∀ a, a ≠ m.registers R.SP → m1.memory a = m.memory a) ∧
        (∀ q, q ≠ R.SP → m1.registers q = m.registers q) := by
    intro h
    refine ⟨_, execute_push_i m v b c h hsp, ?_, ?_, ?_, ?_⟩
    · simp [Machine.setReg, Machine.setMem]
    · simp only [Machine.setReg, update_same]
      unfold toWord; omega
    · intro a ha
      simp [Machine.setReg, Machine.setMem, update_other _ _ _ _ ha]
    · intro q hq
      simp [Machine.setReg, Machine.setMem, update_other _ _ _ _ hq]
  refine ⟨?_, execute_push_i_fault m v b c, hdone⟩
  by_cases h : m.registers R.SP < m.registers R.SB
  · simp [execute_push_i_fault m v b c h, Outcome.error, h]
  · obtain ⟨m1, e, -⟩ := hdone (by omega)
    simp [e, Outcome.error, h]

/-- Witness of C13: on the loaded `sampleMachine` (`SP = SB = 8`) `push 7`
completes, stores 7 in cell 8 and leaves `SP = 9`. -/
theorem push_writes_then_adjusts_witness :
    sampleMachine.registers R.SP < 256 ∧
    ∃ m1, execute sampleMachine ⟨OP_PUSH_I.code, 7, 0, 0⟩ = .done m1 ∧
      m1.memory (sampleMachine.registers R.SP) = 7 ∧
      m1.registers R.SP = (sampleMachine.registers R.SP + 1) % 256 ∧
      (∀ a, a ≠ sampleMachine.registers R.SP → m1.memory a = sampleMachine.memory a) ∧
      (∀ q, q ≠ R.SP → m1.registers q = sampleMachine.registers q) :=
  ⟨by decide, (push_writes_then_adjusts sampleMachine 7 0 0 (by decide)).2.2 (by decide)⟩

/-- Claim C14 (pop adjusts before it reads and is not rolled back): for every
machine state and register `r` in A .. D, dispatching `pop r` faults if and
only if `(SP - 1) mod 256 < SB`; when it faults, SP is already
`(old SP - 1) mod 256` while every other register (so `r`) and all memory are
unchanged; when it completes, `SP = (old SP - 1) mod 256` and
`r = memory[new SP]`. -/
theorem pop_adjusts_then_reads (m : Machine) (r b c : Nat) (hr : R.A ≤ r ∧ r ≤ R.D) :
    ((execute m ⟨OP_POP_R.code, r, b, c⟩).error ≠ none
      ↔ toWord ((m.registers R.SP : Int) - 1) < m.registers R.SB) ∧
    (toWord ((m.registers R.SP : Int) - 1) < m.registers R.SB →
      ∃ m1, execute m ⟨OP_POP_R.code, r, b, c⟩ = .fault .out_of_range m1 ∧
        (m1.registers R.SP : Int) = ((m.registers R.SP : Int) - 1) % 256 ∧
        (∀ q, q ≠ R.SP → m1.registers q = m.registers q) ∧
        m1.memory = m.memory) ∧
    (m.registers R.SB ≤ toWord ((m.registers R.SP : Int) - 1) →
      ∃ m1, execute m ⟨OP_POP_R.code, r, b, c⟩ = .done m1 ∧
        (m1.registers R.SP : Int) = ((m.registers R.SP : Int) - 1) % 256 ∧
        m1.registers r = m.memory (m1.registers R.SP) ∧
        (∀ q, q ≠ R.SP → q ≠ r → m1.registers q = m.registers q) ∧
        m1.memory = m.memory) := by
  obtain ⟨hr1, hr2⟩ := hr
  simp only [R.A, R.D] at hr1 hr2
  have hrsp : (1 : Nat) ≠ r := by omega
  have hw : ((toWord ((m.registers R.SP : Int) - 1) : Nat) : Int)
      = ((m.registers R.SP : Int) - 1) % 256 := by
    unfold toWord; omega
  have hfault : toWord ((m.registers R.SP : Int) - 1) < m.registers R.SB →
      ∃ m1, execute m ⟨OP_POP_R.code, r, b, c⟩ = .fault .out_of_range m1 ∧
        (m1.registers R.SP : Int) = ((m.registers R.SP : Int) - 1) % 256 ∧
        (∀ q, q ≠ R.SP → m1.registers q = m.registers q) ∧
        m1.memory = m.memory := by
    intro h
    refine ⟨_, execute_pop_r_fault m r b c h, ?_, ?_, rfl⟩
    · simp only [Machine.setReg, update_same]; exact hw
    · intro q hq
      simp [Machine.setReg, update_other _ _ _ _ hq]
  have hdone : m.registers R.SB ≤ toWord ((m.registers R.SP : Int) - 1) →
      ∃ m1, execute m ⟨OP_POP_R.code, r, b, c⟩ = .done m1 ∧
        (m1.registers R.SP : Int) = ((m.registers R.SP : Int) - 1) % 256 ∧
        m1.registers r = m.memory (m1.registers R.SP) ∧
        (∀ q, q ≠ R.SP → q ≠ r → m1.registers q = m.registers q) ∧
        m1.memory = m.memory := by
    intro h
    refine ⟨_, execute_pop_r m r b c (by omega) h, ?_, ?_, ?_, rfl⟩
    · simp only [Machine.setReg, update, hrsp, if_false, if_true]; exact hw
    · simp [Machine.setReg, update, hrsp]
    · intro q hq1 hq2
      simp [Machine.setReg, update, hq1, hq2]
  refine ⟨?_, hfault, hdone⟩
  by_cases h : toWord ((m.registers R.SP : Int) - 1) < m.registers R.SB
  · obtain ⟨m1, e, -⟩ := hfault h
    simp [e, Outcome.error, h]
  · obtain ⟨m1, e, -⟩ := hdone (by omega)
    simp [e, Outcome.error, h]

/-- Witness of C14: on the loaded `sampleMachine` (`SP = SB = 8`, empty
stack) `pop rax` faults and leaves `SP = 7`. -/
theorem pop_adjusts_then_reads_witness :
    (R.A ≤ R.A ∧ R.A ≤ R.D) ∧
    ∃ m1, execute sampleMachine ⟨OP_POP_R.code, R.A, 0, 0⟩ = .fault .out_of_range m1 ∧
      (m1.registers R.SP : Int) = ((sampleMachine.registers R.SP : Int) - 1) % 256 ∧
      (∀ q, q ≠ R.SP → m1.registers q = sampleMachine.registers q) ∧
      m1.memory = sampleMachine.memory :=
  ⟨by decide,
    (pop_adjusts_then_reads sampleMachine R.A 0 0 (by decide)).2.1 (by decide)⟩

/-- Claim C19 (an unknown opcode is a silent no-op): for every machine state
and every instruction whose operation byte is not one of the 30 defined
opcodes (value `≥ 30`), with any operands, dispatch completes without a fault
and leaves every register and every memory cell unchanged. -/
theorem unknown_opcode_noop (m : Machine) (ins : Instruction) (h : 30 ≤ ins.operation) :
    execute m ins = .done m := by
  unfold execute
  rw [ofWord_none _ h]

/-- Witness of C19: operation byte 30 on the loaded `sampleMachine`. -/
theorem unknown_opcode_noop_witness :
    execute sampleMachine ⟨30, 200, 200, 200⟩ = .done sampleMachine :=
  unknown_opcode_noop sampleMachine ⟨30, 200, 200, 200⟩ (by decide)

/-- Claim C20 (an untaken conditional jump validates nothing): for every
machine state in which bit 0 of register F is 0 and every operand byte `x`
(also `x ≥ 8`), dispatching any of `OP_JER_I`, `OP_JER_R`, `OP_JEA_I`,
`OP_JEA_R` with operand `x` completes without a fault and leaves every
register and every memory cell unchanged. -/
theorem untaken_je_noop (m : Machine) (x b c : Nat) (hf : m.registers R.F % 2 = 0) :
    execute m ⟨OP_JER_I.code, x, b, c⟩ = .done m ∧
    execute m ⟨OP_JER_R.code, x, b, c⟩ = .done m ∧
    execute m ⟨OP_JEA_I.code, x, b, c⟩ = .done m ∧
    execute m ⟨OP_JEA_R.code, x, b, c⟩ = .done m := by
  refine ⟨?_, ?_, ?_, ?_⟩ <;>
    simp [execute, Operation.code, Operation.ofWord, flags_eq, hf]

/-- Witness of C20: with `F = 0` the four conditional jumps with operand 200
(not a register index) leave the loaded `sampleMachine` as it is. -/
theorem untaken_je_noop_witness :
    execute sampleMachine ⟨OP_JER_R.code, 200, 0, 0⟩ = .done sampleMachine ∧
    execute sampleMachine ⟨OP_JEA_R.code, 200, 0, 0⟩ = .done sampleMachine :=
  ⟨(untaken_je_noop sampleMachine 200 0 0 (by decide)).2.1,
    (untaken_je_noop sampleMachine 200 0 0 (by decide)).2.2.2⟩

/-- Claim C11 (an invalid register index is fatal): for every machine state
and every instruction whose opcode uses an operand as a register index (a
move, add/sub/mul/div, push-register, pop, compare, jump-by-register, or a
conditional jump-by-register executed with the eq flag set), if such an
operand is `≥ 8` then dispatch faults (with `std::out_of_range`) instead of
completing. -/
theorem invalid_register_faults (m : Machine) (ins : Instruction) (op : Operation)
    (hop : Operation.ofWord ins.operation = some op)
    (hbad : (op.operand1IsRegister = true ∧ 8 ≤ ins.operand1) ∨
      (op.operand2IsRegister = true ∧ 8 ≤ ins.operand2))
    (hje : op.isConditionalJump = true → m.registers R.F % 2 = 1) :
    (execute m ins).error = some .out_of_range := by
  unfold execute
  rw [hop]
  cases op <;>
    simp only [Operation.operand1IsRegister, Operation.operand2IsRegister,
      Operation.isConditionalJump, true_and, false_and, or_false, false_or, forall_true_left,
      Bool.false_eq_true] at hbad hje
  all_goals
    simp only [mov_r_mr, mov_mr_i, mov_mr_r, add_r_i, sub_r_i, registers_at, registers_at_put,
      memory_at, memory_at_put, divide, bind, Except.bind, pure, Except.pure, attempt,
      Outcome.andThen, flags_eq, RegCount]
  all_goals (try rcases hbad with hbad | hbad)
  all_goals
    try (have h1 : ¬ ins.operand1 < 8 := by omega)
    try (have h2 : ¬ ins.operand2 < 8 := by omega)
    try simp [*, Outcome.error]
  all_goals
    repeat' (split_ifs <;> try simp [Outcome.error, *])

/-- Witness of C11: `mov r8, 1` (register index 8) on the loaded
`sampleMachine`. -/
theorem invalid_register_faults_witness :
    Operation.ofWord (Instruction.mk OP_MOV_R_I.code 8 1 0).operation = some OP_MOV_R_I ∧
    (execute sampleMachine ⟨OP_MOV_R_I.code, 8, 1, 0⟩).error = some .out_of_range :=
  ⟨rfl, invalid_register_faults sampleMachine ⟨OP_MOV_R_I.code, 8, 1, 0⟩ OP_MOV_R_I rfl
    (Or.inl ⟨rfl, by decide⟩) (by decide)⟩

/-- Counterexample to C12 as stated.  On the loaded `sampleMachine`
(`SP = SB = 8`, empty stack) `pop rax`, whose destination is neither SP nor
SB, faults and leaves `SP = 7 < SB = 8`; on `fullStackMachine` (`SB = 8`,
`SP = 255`) `push 7` completes and leaves `SP = 0 < SB = 8`. -/
theorem sp_ge_sb_broken :
    (sampleMachine.registers R.SB ≤ sampleMachine.registers R.SP ∧
      (execute sampleMachine ⟨OP_POP_R.code, R.A, 0, 0⟩).error = some .out_of_range ∧
      (execute sampleMachine ⟨OP_POP_R.code, R.A, 0, 0⟩).machine.registers R.SP = 7 ∧
      (execute sampleMachine ⟨OP_POP_R.code, R.A, 0, 0⟩).machine.registers R.SB = 8) ∧
    (fullStackMachine.registers R.SB ≤ fullStackMachine.registers R.SP ∧
      (execute fullStackMachine ⟨OP_PUSH_I.code, 7, 0, 0⟩).error = none ∧
      (execute fullStackMachine ⟨OP_PUSH_I.code, 7, 0, 0⟩).machine.registers R.SP = 0 ∧
      (execute fullStackMachine ⟨OP_PUSH_I.code, 7, 0, 0⟩).machine.registers R.SB = 8) := by
  decide

/-- Claim C12, amended (the `SP ≥ SB` invariant): for every machine state
with `SP ≥ SB` and every instruction that does not name SP or SB as the
destination register of a move, arithmetic or pop, the state left by
dispatching that instruction, whether it completes or faults, still satisfies
`SP ≥ SB`, provided a push is not dispatched at `SP = 255` with `SB > 0` and
a pop is not dispatched on the empty stack `SP = SB > 0`. -/
theorem sp_ge_sb_preserved (m : Machine) (ins : Instruction)
    (hinv : m.registers R.SB ≤ m.registers R.SP) (hsp : m.registers R.SP < 256)
    (hdst : ∀ op, Operation.ofWord ins.operation = some op → op.writesOperand1 = true →
      ins.operand1 ≠ R.SP ∧ ins.operand1 ≠ R.SB)
    (hpush : Operation.ofWord ins.operation = some OP_PUSH_I ∨
      Operation.ofWord ins.operation = some OP_PUSH_R →
      m.registers R.SP < 255 ∨ m.registers R.SB = 0)
    (hpop : Operation.ofWord ins.operation = some OP_POP_R →
      m.registers R.SB < m.registers R.SP ∨ m.registers R.SB = 0) :
    (execute m ins).machine.registers R.SB ≤ (execute m ins).machine.registers R.SP := by
  have key : ∀ (r : Except Fault Machine),
      (∀ m1, r = .ok m1 → m1.registers R.SB ≤ m1.registers R.SP) →
      (attempt m r).machine.registers R.SB ≤ (attempt m r).machine.registers R.SP :=
    fun r h1 => attempt_machine (fun x => x.registers R.SB ≤ x.registers R.SP) m r hinv h1
  unfold execute
  split
  case h_18 | h_19 =>
    rename_i heq
    have hp := hpush (by simp [heq])
    apply andThen_machine (fun x => x.registers R.SB ≤ x.registers R.SP)
    · intro e m1 h
      rw [attempt_eq_fault] at h
      rw [h.2]; exact hinv
    · intro m1 h
      have hm1 : m1.registers = m.registers := by
        revert h
        simp only [attempt_eq_done, mov_mr_i, mov_mr_r, bind_eq_ok, registers_at_eq_ok,
          memory_at_put_eq_ok, and_assoc]
        intro h
        obtain ⟨_, _, _, _, _, _, _, _, _, _, rfl⟩ := h
        rfl
      apply attempt_machine (fun x => x.registers R.SB ≤ x.registers R.SP) m1 _
        (by rw [hm1]; exact hinv)
      intro m2 h2
      simp only [add_r_i, bind_eq_ok, registers_at_eq_ok, registers_at_put_eq_ok,
        and_assoc] at h2
      obtain ⟨_, _, _, _, _, _, _, rfl⟩ := h2
      subst_vars
      simp only [Machine.setReg, update, hm1]
      simp
      unfold toWord
      omega
  case h_20 =>
    rename_i heq
    have hp := hpop heq
    have hd := hdst _ heq rfl
    apply andThen_machine (fun x => x.registers R.SB ≤ x.registers R.SP)
    · intro e m1 h
      rw [attempt_eq_fault] at h
      rw [h.2]; exact hinv
    · intro m1 h
      simp only [attempt_eq_done, sub_r_i, bind_eq_ok, registers_at_eq_ok,
        registers_at_put_eq_ok, and_assoc] at h
      obtain ⟨_, _, _, _, _, _, _, rfl⟩ := h
      subst_vars
      have hm1 : (m.setReg R.SP (toWord ((m.registers R.SP : Int) - 1))).registers R.SB
          ≤ (m.setReg R.SP (toWord ((m.registers R.SP : Int) - 1))).registers R.SP := by
        simp [Machine.setReg, update]
        unfold toWord; omega
      apply attempt_machine (fun x => x.registers R.SB ≤ x.registers R.SP) _ _ hm1
      intro m2 h2
      simp only [mov_r_mr, bind_eq_ok, registers_at_eq_ok, registers_at_put_eq_ok,
        memory_at_eq_ok, and_assoc] at h2
      obtain ⟨_, _, _, _, _, _, _, _, _, _, _, rfl⟩ := h2
      subst_vars
      have h1 : ¬ (1 = ins.operand1) := fun h => hd.1 h.symm
      have h2 : ¬ (2 = ins.operand1) := fun h => hd.2 h.symm
      simp only [Machine.setReg, update, h1, h2, if_false] at hm1 ⊢
      exact hm1
  case h_31 => exact hinv
  all_goals
    rename_i heq
    have hd := hdst _ heq
    simp only [Operation.writesOperand1, forall_true_left, Bool.false_eq_true, false_implies,
      ne_eq] at hd
  all_goals first
    | exact hinv
    | (split <;> first
        | exact hinv
        | skip)
    | skip
  all_goals
    apply key
    intro m1
    simp only [mov_r_mr, mov_mr_i, mov_mr_r, add_r_i, sub_r_i, bind_eq_ok, pure_eq_ok,
      map_eq_ok, registers_at_eq_ok, registers_at_put_eq_ok, memory_at_eq_ok,
      memory_at_put_eq_ok, divide_eq_ok, and_assoc]
    intro h
    obtain ⟨_, _, _, _, _, _, _, _, _, _, _, _, _, _, rfl⟩ := h
    subst_vars
    first
      | exact hinv
      | (have h1 : ¬ (1 = ins.operand1) := fun h => hd.1 h.symm
         have h2 : ¬ (2 = ins.operand1) := fun h => hd.2 h.symm
         simp only [Machine.setReg, update, h1, h2, if_false]
         exact hinv)

/-- Witness of C12 amended: `push 7` on the loaded `sampleMachine`
(`SP = SB = 8`) keeps `SP ≥ SB`. -/
theorem sp_ge_sb_preserved_witness :
    sampleMachine.registers R.SB ≤ sampleMachine.registers R.SP ∧
    (execute sampleMachine ⟨OP_PUSH_I.code, 7, 0, 0⟩).machine.registers R.SB
      ≤ (execute sampleMachine ⟨OP_PUSH_I.code, 7, 0, 0⟩).machine.registers R.SP :=
  ⟨by decide,
    sp_ge_sb_preserved sampleMachine ⟨OP_PUSH_I.code, 7, 0, 0⟩ (by decide) (by decide)
      (fun op h hw => by
        have e : op = OP_PUSH_I := (Option.some.inj h).symm
        subst e
        cases hw)
      (fun _ => Or.inl (by decide))
      (fun h => by cases h)⟩

/-- Claim C15 (jumps at the step level): for every machine state whose next
instruction (the four cells ending at IP) is `jmpr k`, one step leaves
`IP = (old IP - 4 - k) mod 256`; for `jmpa t` one step leaves `IP = t`; every
register other than IP and all memory are unchanged.  The register forms
behave the same with `k` or `t` the value of the named register `x`; when
`x` is IP itself that value is the one the fetch has left there,
`(old IP - 4) mod 256`, so `jmpr rip` leaves `IP = 0` and `jmpa rip` leaves
`IP = (old IP - 4) mod 256`. -/
theorem step_jumps (m : Machine) (x : Nat)
    (hx : m.memory (toWord ((m.ip : Int) - 2)) = x) :
    (m.memory (toWord ((m.ip : Int) - 3)) = OP_JMPR_I.code →
      step m = .done (m.setReg R.IP (toWord ((m.ip : Int) - 4 - x)))) ∧
    (m.memory (toWord ((m.ip : Int) - 3)) = OP_JMPA_I.code →
      step m = .done (m.setReg R.IP x)) ∧
    (m.memory (toWord ((m.ip : Int) - 3)) = OP_JMPR_R.code → x < 8 → x ≠ R.IP →
      step m = .done (m.setReg R.IP (toWord ((m.ip : Int) - 4 - m.registers x)))) ∧
    (m.memory (toWord ((m.ip : Int) - 3)) = OP_JMPA_R.code → x < 8 → x ≠ R.IP →
      step m = .done (m.setReg R.IP (m.registers x))) ∧
    (m.memory (toWord ((m.ip : Int) - 3)) = OP_JMPR_R.code → x = R.IP →
      step m = .done (m.setReg R.IP 0)) ∧
    (m.memory (toWord ((m.ip : Int) - 3)) = OP_JMPA_R.code → x = R.IP →
      step m = .done (m.setReg R.IP (toWord ((m.ip : Int) - 4)))) := by
  have e0 : toWord 0 = 0 := rfl
  refine ⟨?_, ?_, ?_, ?_, ?_, ?_⟩
  · intro hop
    rw [step_eq, decodeNext_eq, hop, hx]
    simp [execute, Operation.code, Operation.ofWord, Machine.ip, Machine.setReg, update_update,
      toWord_toWord_sub]
  · intro hop
    rw [step_eq, decodeNext_eq, hop, hx]
    simp [execute, Operation.code, Operation.ofWord, Machine.ip, Machine.setReg, update_update]
  · intro hop hlt h0
    rw [step_eq, decodeNext_eq, hop, hx]
    simp [execute, Operation.code, Operation.ofWord, Machine.ip, Machine.setReg, update_update,
      registers_at, attempt, hlt, update, h0, toWord_toWord_sub]
  · intro hop hlt h0
    rw [step_eq, decodeNext_eq, hop, hx]
    simp [execute, Operation.code, Operation.ofWord, Machine.ip, Machine.setReg, update_update,
      registers_at, attempt, hlt, update, h0]
  · intro hop h0
    rw [step_eq, decodeNext_eq, hop, hx, h0]
    simp [execute, Operation.code, Operation.ofWord, Machine.ip, Machine.setReg, update_update,
      registers_at, attempt, e0]
  · intro hop h0
    rw [step_eq, decodeNext_eq, hop, hx, h0]
    simp [execute, Operation.code, Operation.ofWord, Machine.ip, Machine.setReg, update_update,
      registers_at, attempt]


/-- Witness of C15: on `jumpMachine` (`IP = 7`, next instruction `jmpr 3`)
one step leaves `IP = (7 - 4 - 3) mod 256 = 0`. -/
theorem step_jumps_witness :
    jumpMachine.memory (toWord ((jumpMachine.ip : Int) - 2)) = 3 ∧
    jumpMachine.memory (toWord ((jumpMachine.ip : Int) - 3)) = OP_JMPR_I.code ∧
    step jumpMachine
      = .done (jumpMachine.setReg R.IP (toWord ((jumpMachine.ip : Int) - 4 - (3 : Nat)))) ∧
    toWord ((jumpMachine.ip : Int) - 4 - (3 : Nat)) = 0 :=
  ⟨by decide, by decide, (step_jumps jumpMachine 3 (by decide)).1 (by decide), by decide⟩

/-- Claim C17 (a straight-line program does not halt on its last
instruction): after `load` of `N` instructions (`1 ≤ N ≤ 63`), if the first
`k ≤ N` steps each complete without a fault and dispatch an instruction that
is neither a jump nor has IP as its destination register, then IP after those
`k` steps is `(4(N-k) - 1) mod 256`; this value is congruent to 3 modulo 4 and
so never 0, and after the `N`-th instruction `IP = 255`. -/
theorem straight_line_ip (m : Machine) (s : List Instruction) (k : Nat) (m1 : Machine)
    (h1 : 1 ≤ s.length) (h2 : s.length ≤ 63) (hk : k ≤ s.length)
    (hrun : straightSteps k (load m s) = some m1) :
    (m1.registers R.IP : Int) = (4 * ((s.length : Int) - k) - 1) % 256 ∧
    m1.registers R.IP % 4 = 3 ∧
    m1.registers R.IP ≠ 0 ∧
    (k = s.length → m1.registers R.IP = 255) := by
  have hl := (load_loaded m s h1 h2).1
  have hip := straightSteps_ip k _ _ (by rw [hl]; exact toWord_lt _) hrun
  rw [hl] at hip
  rw [hip]
  unfold toWord
  push_cast
  refine ⟨?_, ?_, ?_, ?_⟩
  · omega
  · omega
  · omega
  · intro hk; subst hk; omega


/-- Witness of C17: the two steps of `sampleProgram` run straight-line and
leave `IP = 255`. -/
theorem straight_line_ip_witness :
    1 ≤ sampleProgram.length ∧ sampleProgram.length ≤ 63 ∧
    ∃ m1, straightSteps 2 (load Machine.fresh sampleProgram) = some m1 ∧
      m1.registers R.IP = 255 := by
  have h : (straightSteps 2 (load Machine.fresh sampleProgram)).isSome = true := by decide
  obtain ⟨m1, hm⟩ := Option.isSome_iff_exists.mp h
  exact ⟨by decide, by decide, m1, hm,
    (straight_line_ip Machine.fresh sampleProgram 2 m1 (by decide) (by decide) (by decide)
      hm).2.2.2 rfl⟩

/-- Claim C18 (straight-line programs halt through zeroed memory): on a
freshly constructed machine, for every program of `N` instructions
(`1 ≤ N ≤ 63`) each of the form `mov r, imm` with `r` in A .. D, the
`execute()` loop after `load` terminates after exactly `N + 1` steps with
`IP = 0`: the first `N` steps run the program and leave `IP = 255`, the
`(N+1)`-th decodes the all-zero cells 252 .. 255 as `mov rip, 0`.  The final
values of A .. D are those of the last move to each register (0 when there is
none), and `SP = SB = 4N`. -/
theorem mov_program_halts (s : List Instruction) (fuel : Nat) (h1 : 1 ≤ s.length) (h2 : s.length ≤ 63)
    (hprog : ∀ x ∈ s, x.operation = OP_MOV_R_I.code ∧ R.A ≤ x.operand1 ∧ x.operand1 ≤ R.D)
    (hfuel : s.length + 1 ≤ fuel) :
    ∃ mN mf, straightSteps s.length (load Machine.fresh s) = some mN ∧
      mN.registers R.IP = 255 ∧
      (decodeNext mN).1 = ⟨0, 0, 0, 0⟩ ∧ step mN = .done mf ∧
      executeLoop fuel (load Machine.fresh s) = some (s.length + 1, .done mf) ∧
      mf.registers R.IP = 0 ∧
      (∀ r, R.A ≤ r → r ≤ R.D → mf.registers r = lastMove r 0 s) ∧
      mf.registers R.SP = 4 * s.length ∧
      mf.registers R.SB = 4 * s.length := by
  obtain ⟨f1, f2, f3, f4⟩ := load_frame Machine.fresh s h1 h2
  have hready : Ready (load Machine.fresh s) s :=
    ⟨load_loaded Machine.fresh s h1 h2, fun a ha _ => by rw [f1 a (by omega)]; rfl⟩
  obtain ⟨mN, mf, a1, a2, a3, a4, a5, a6, a7, a8, a9⟩ :=
    run_moves s (load Machine.fresh s) fuel h2 hready hprog hfuel
  refine ⟨mN, mf, a1, a2, a3, a4, a5, a6, ?_, by rw [a8, f2], by rw [a9, f3]⟩
  intro r hr1 hr2
  rw [a7 r hr1 hr2, f4 r hr1]
  rfl


/-- Witness of C18: `mov rax, 1; mov rbx, 2; mov rax, 3` halts after 4 steps
with `A = 3`, `B = 2`, `SP = SB = 12`. -/
theorem mov_program_halts_witness :
    ∃ mf, executeLoop 4 (load Machine.fresh movProgram) = some (4, .done mf) ∧
      mf.registers R.IP = 0 ∧ mf.registers R.A = 3 ∧ mf.registers R.B = 2 ∧
      mf.registers R.SP = 12 ∧ mf.registers R.SB = 12 := by
  obtain ⟨_, mf, -, -, -, -, a5, a6, a7, a8, a9⟩ :=
    mov_program_halts movProgram 4 (by decide) (by decide) (by decide) (by decide)
  exact ⟨mf, a5, a6, a7 R.A (by decide) (by decide), a7 R.B (by decide) (by decide), a8, a9⟩

/-- Claim C16 (the invalid-instruction-pointer fault is unreachable): for
every machine state (every byte value of IP, every memory content), `step`
never raises `ERR_INVALID_IP`; a fault of a step is a division by zero (the
decoded instruction is a `div` and its divisor is 0), or an out-of-range
condition caused by a register-index operand `≥ 8` or by a guarded memory
address below SB. -/
theorem step_fault_kinds (m : Machine) (hm : m.WF) :
    (step m).error ≠ some .ERR_INVALID_IP ∧
    ((step m).error = some .division_by_zero →
      (Operation.ofWord (decodeNext m).1.operation = some OP_DIV_R_I ∧
        (decodeNext m).1.operand2 = 0) ∨
      (Operation.ofWord (decodeNext m).1.operation = some OP_DIV_R_R ∧
        (decodeNext m).2.registers (decodeNext m).1.operand2 = 0)) ∧
    ((step m).error = some .out_of_range →
      (∃ op, Operation.ofWord (decodeNext m).1.operation = some op ∧
        ((op.operand1IsRegister = true ∧ 8 ≤ (decodeNext m).1.operand1) ∨
         (op.operand2IsRegister = true ∧ 8 ≤ (decodeNext m).1.operand2))) ∨
      (∃ a ∈ guardedAddresses (decodeNext m).2 (decodeNext m).1,
        a < (decodeNext m).2.registers R.SB)) := by
  have hwf2 : (decodeNext m).2.WF := by
    rw [decodeNext_eq]; exact WF_setReg _ _ _ hm (toWord_lt _)
  have hwf1 : (decodeNext m).1.WF := by
    rw [decodeNext_eq]; exact ⟨hm.1 _, hm.1 _, hm.1 _, hm.1 _⟩
  rw [step_eq]
  refine ⟨?_, ?_, execute_out_of_range_cause _ _ hwf2 hwf1⟩
  · rcases execute_error_cases (decodeNext m).2 (decodeNext m).1 with h | h | ⟨h, -⟩ <;>
      rw [h] <;> simp
  · intro h
    rcases execute_error_cases (decodeNext m).2 (decodeNext m).1 with h1 | h1 | ⟨-, h1⟩
    · rw [h1] at h; cases h
    · rw [h1] at h; cases h
    · exact h1

/-- Witness of C16: on the byte-valued `divFaultMachine` the step faults with
the division fault, not `ERR_INVALID_IP`, and the decoded instruction is
`div rax, rbx` with `B = 0`. -/
theorem step_fault_kinds_witness :
    (step divFaultMachine).error = some .division_by_zero ∧
    (step divFaultMachine).error ≠ some .ERR_INVALID_IP ∧
    ((Operation.ofWord (decodeNext divFaultMachine).1.operation = some OP_DIV_R_I ∧
        (decodeNext divFaultMachine).1.operand2 = 0) ∨
      (Operation.ofWord (decodeNext divFaultMachine).1.operation = some OP_DIV_R_R ∧
        (decodeNext divFaultMachine).2.registers (decodeNext divFaultMachine).1.operand2 = 0)) :=
  ⟨by decide, (step_fault_kinds divFaultMachine divFaultMachine_WF).1,
    (step_fault_kinds divFaultMachine divFaultMachine_WF).2.1 (by decide)⟩

end RM
